import Mathlib

/-!
Verification of the dependency-discovery core of a multi-module workspace:
the graph builder, Kahn-style topological sorter, transitive-dependents
query and build-order-prefix query from `discover-dependencies.py`.

Python dictionaries (which preserve insertion order) are embedded as
ordered association lists `List (String × α)`; dictionary lookup reads the
first matching key, and in-place mutation of a value rewrites the matching
entry without changing the key order.
-/

namespace Discover

/-- A dependency graph: a Python dict mapping module name to the list of
its declared dependency names, embedded as an ordered association list. -/
abbrev Graph := List (String × List String)

/-- The keys of a dict, in insertion order. -/
def keys : List (String × α) → List String
  | [] => []
  | (k, _) :: rest => k :: keys rest

/-- Python dict lookup `d[k]` (first matching entry; `none` models KeyError). -/
def dlookup (al : List (String × α)) (k : String) : Option α :=
  match al with
  | [] => none
  | (k2, v) :: rest => if k2 = k then some v else dlookup rest k

/-- In-place mutation `d[k] = f d[k]` of a dict value: rewrite the entry
holding key `k`, keeping insertion order; a no-op when `k` is absent. -/
def dmodify (al : List (String × α)) (k : String) (f : α → α) :
    List (String × α) :=
  match al with
  | [] => []
  | (k2, v) :: rest =>
    if k2 = k then (k2, f v) :: dmodify rest k f
    else (k2, v) :: dmodify rest k f

/-- The dependency list a graph records for a module (`[]` when absent). -/
def depsOf (g : Graph) (x : String) : List String :=
  (dlookup g x).getD []

/-- Overwrite the value stored at key `k` in place, keeping key order. -/
def dictReplace (al : List (String × α)) (k : String) (v : α) :
    List (String × α) :=
  match al with
  | [] => []
  | (k2, v2) :: rest =>
    if k2 = k then (k2, v) :: dictReplace rest k v
    else (k2, v2) :: dictReplace rest k v

/-- Python `dict.update({k: v})` / `d[k] = v`: overwrite the value in place
when the key exists (keeping its position), otherwise append a new entry. -/
def dictInsert (al : List (String × α)) (k : String) (v : α) :
    List (String × α) :=
  if (dlookup al k).isSome then dictReplace al k v
  else al ++ [(k, v)]

/-- `build_dependency_graph`: fold the discovered `(module name, local deps)`
pairs into a dict with `dict.update`, later pairs overwriting earlier ones. -/
def build_dependency_graph (pairs : List (String × List String)) : Graph :=
  pairs.foldl (fun g p => dictInsert g p.1 p.2) []

/-- Modelled from the spec: the value the GraphBuilder contract promises for
a name — the dependency list of the last pair carrying that name. -/
def lastAssignment (pairs : List (String × List String)) (n : String) :
    Option (List String) :=
  pairs.foldl (fun acc p => if p.1 = n then some p.2 else acc) none

theorem mem_keys_cons {p : String × α} {rest : List (String × α)} {k : String} :
    k ∈ keys (p :: rest) ↔ k = p.1 ∨ k ∈ keys rest := by
  obtain ⟨k2, v⟩ := p
  simp [keys]

theorem keys_append (al bl : List (String × α)) :
    keys (al ++ bl) = keys al ++ keys bl := by
  induction al with
  | nil => rfl
  | cons p rest ih =>
    obtain ⟨k2, v⟩ := p
    simp [keys, ih]

theorem dlookup_isSome_iff {al : List (String × α)} {k : String} :
    (dlookup al k).isSome ↔ k ∈ keys al := by
  induction al with
  | nil => simp [dlookup, keys]
  | cons p rest ih =>
    obtain ⟨k2, v⟩ := p
    by_cases h : k2 = k
    · subst h
      simp [dlookup, keys]
    · have h' : ¬ k = k2 := fun he => h he.symm
      simp [dlookup, keys, h, h', ih]

theorem dlookup_eq_none_iff {al : List (String × α)} {k : String} :
    dlookup al k = none ↔ k ∉ keys al := by
  rw [← dlookup_isSome_iff, Option.not_isSome_iff_eq_none]

theorem keys_dmodify (al : List (String × α)) (k : String) (f : α → α) :
    keys (dmodify al k f) = keys al := by
  induction al with
  | nil => rfl
  | cons p rest ih =>
    obtain ⟨k2, v⟩ := p
    by_cases h : k2 = k <;> simp [dmodify, keys, h, ih]

theorem dlookup_dmodify (al : List (String × α)) (k k' : String) (f : α → α) :
    dlookup (dmodify al k f) k' =
      if k' = k then (dlookup al k').map f else dlookup al k' := by
  induction al with
  | nil => simp [dlookup, dmodify]
  | cons p rest ih =>
    obtain ⟨k2, v⟩ := p
    by_cases hk : k2 = k
    · subst hk
      by_cases h2 : k2 = k'
      · subst h2
        simp [dmodify, dlookup]
      · have h2' : ¬ k' = k2 := fun he => h2 he.symm
        simp [dmodify, dlookup, h2, h2', ih]
    · by_cases h2 : k2 = k'
      · subst h2
        simp [dmodify, dlookup, hk, ih]
      · simp [dmodify, dlookup, hk, h2, ih]

theorem keys_dictReplace (al : List (String × α)) (k : String) (v : α) :
    keys (dictReplace al k v) = keys al := by
  induction al with
  | nil => rfl
  | cons p rest ih =>
    obtain ⟨k2, v2⟩ := p
    by_cases h : k2 = k <;> simp [dictReplace, keys, h, ih]

theorem dlookup_dictReplace (al : List (String × α)) (k k' : String) (v : α) :
    dlookup (dictReplace al k v) k' =
      if k' = k then (dlookup al k).map (fun _ => v) else dlookup al k' := by
  induction al with
  | nil => simp [dictReplace, dlookup]
  | cons p rest ih =>
    obtain ⟨k2, v2⟩ := p
    by_cases hk : k2 = k
    · subst hk
      by_cases h2 : k' = k2
      · subst h2
        simp [dictReplace, dlookup]
      · have h2' : ¬ k2 = k' := fun he => h2 he.symm
        simp [dictReplace, dlookup, h2, h2', ih]
    · by_cases h2 : k' = k2
      · subst h2
        have hk' : ¬ k' = k := hk
        simp [dictReplace, dlookup, hk, hk', ih]
      · have h2' : ¬ k2 = k' := fun he => h2 he.symm
        simp [dictReplace, dlookup, hk, h2, h2', ih]

theorem dlookup_append_right (al : List (String × α)) (k : String)
    (bl : List (String × α)) (h : k ∉ keys al) :
    dlookup (al ++ bl) k = dlookup bl k := by
  induction al with
  | nil => rfl
  | cons p rest ih =>
    obtain ⟨k2, v2⟩ := p
    have hk2 : ¬ k2 = k := by
      intro he; exact h (by simp [mem_keys_cons, he.symm])
    have hrest : k ∉ keys rest := by
      intro he; exact h (by simp [mem_keys_cons, he])
    simp [dlookup, hk2, ih hrest]

theorem dlookup_append_left (al : List (String × α)) (k : String)
    (bl : List (String × α)) (h : k ∈ keys al) :
    dlookup (al ++ bl) k = dlookup al k := by
  induction al with
  | nil => simp [keys] at h
  | cons p rest ih =>
    obtain ⟨k2, v2⟩ := p
    by_cases hk : k2 = k
    · simp [dlookup, hk]
    · have hrest : k ∈ keys rest := by
        rcases mem_keys_cons.mp h with he | he
        · exact absurd he.symm hk
        · exact he
      simp [dlookup, hk, ih hrest]

theorem dlookup_dictInsert (al : List (String × α)) (k k' : String) (v : α) :
    dlookup (dictInsert al k v) k' =
      if k' = k then some v else dlookup al k' := by
  by_cases hk : (dlookup al k).isSome
  · obtain ⟨v0, hv0⟩ := Option.isSome_iff_exists.mp hk
    simp [dictInsert, hk, dlookup_dictReplace al k k' v, hv0]
  · have hnone : dlookup al k = none := Option.not_isSome_iff_eq_none.mp hk
    have hmem : k ∉ keys al := dlookup_eq_none_iff.mp hnone
    simp only [dictInsert, hk, if_false]
    by_cases h2 : k' = k
    · subst h2
      simp [dlookup_append_right al k' [(k', v)] hmem, dlookup]
    · by_cases hmem' : k' ∈ keys al
      · simp [dlookup_append_left al k' [(k, v)] hmem', h2]
      · have h2' : ¬ k = k' := fun he => h2 he.symm
        simp [dlookup_append_right al k' [(k, v)] hmem', dlookup, h2', h2,
          dlookup_eq_none_iff.mpr hmem']

theorem keys_dictInsert_of_mem (al : List (String × α)) (k : String) (v : α)
    (h : k ∈ keys al) : keys (dictInsert al k v) = keys al := by
  have hs : (dlookup al k).isSome := dlookup_isSome_iff.mpr h
  simp [dictInsert, hs, keys_dictReplace]

theorem keys_dictInsert_of_not_mem (al : List (String × α)) (k : String)
    (v : α) (h : k ∉ keys al) :
    keys (dictInsert al k v) = keys al ++ [k] := by
  have hn : dlookup al k = none := dlookup_eq_none_iff.mpr h
  have : ¬ (dlookup al k).isSome := by simp [hn]
  simp [dictInsert, this, keys_append, keys]

theorem build_append (pairs : List (String × List String))
    (p : String × List String) :
    build_dependency_graph (pairs ++ [p]) =
      dictInsert (build_dependency_graph pairs) p.1 p.2 := by
  simp [build_dependency_graph, List.foldl_append]

theorem lastAssignment_append (pairs : List (String × List String))
    (p : String × List String) (n : String) :
    lastAssignment (pairs ++ [p]) n =
      if p.1 = n then some p.2 else lastAssignment pairs n := by
  simp [lastAssignment, List.foldl_append]

theorem dlookup_build_eq_lastAssignment
    (pairs : List (String × List String)) (n : String) :
    dlookup (build_dependency_graph pairs) n = lastAssignment pairs n := by
  induction pairs using List.reverseRecOn with
  | nil => simp [build_dependency_graph, lastAssignment, dlookup]
  | append_singleton ps p ih =>
    rw [build_append, lastAssignment_append, dlookup_dictInsert]
    by_cases h : n = p.1
    · simp [h]
    · have h' : ¬ p.1 = n := fun he => h he.symm
      simp [h, h', ih]

theorem keys_build_nodup (pairs : List (String × List String)) :
    (keys (build_dependency_graph pairs)).Nodup := by
  induction pairs using List.reverseRecOn with
  | nil => simp [build_dependency_graph, keys]
  | append_singleton ps p ih =>
    rw [build_append]
    by_cases h : p.1 ∈ keys (build_dependency_graph ps)
    · rw [keys_dictInsert_of_mem _ _ _ h]
      exact ih
    · rw [keys_dictInsert_of_not_mem _ _ _ h]
      simpa [List.nodup_append] using ⟨ih, h⟩

theorem mem_keys_build (pairs : List (String × List String)) (n : String)
    (ds : List String) (h : (n, ds) ∈ pairs) :
    n ∈ keys (build_dependency_graph pairs) := by
  rw [← dlookup_isSome_iff, dlookup_build_eq_lastAssignment]
  induction pairs using List.reverseRecOn with
  | nil => simp at h
  | append_singleton ps p ih =>
    rw [lastAssignment_append]
    rcases (by simpa using h : (n, ds) ∈ ps ∨ (n, ds) = p) with hm | hm
    · by_cases hp : p.1 = n
      · simp [hp]
      · simpa [hp] using ih hm
    · simp [← hm]

/-! ### Transitive dependents (`get_dependents`)

The Python helper `find_dependents(module)` scans every `(node, deps)` item
of the graph; when `module ∈ deps` and `node` is not yet in the result set
it adds `node` and recurses on `node`.  The recursion depth is bounded
because every nested call first adds a fresh graph key to the result; the
embedding makes the depth explicit as fuel, and `none` marks the
(unreachable) fuel-exhaustion outcome. -/

/-- One `find_dependents` activation, scanning the remaining `entries` of the
graph with the growing result set `dependents`; nested activations consume
one unit of fuel. -/
def find_dependents_scan (g : Graph) (fuel : Nat)
    (entries : List (String × List String)) (module : String)
    (dependents : List String) : Option (List String) :=
  match entries with
  | [] => some dependents
  | (node, deps) :: rest =>
    if module ∈ deps ∧ node ∉ dependents then
      match fuel with
      | 0 => none
      | fuel2 + 1 =>
        match find_dependents_scan g fuel2 g node (dependents ++ [node]) with
        | none => none
        | some d2 => find_dependents_scan g (fuel2 + 1) rest module d2
    else find_dependents_scan g fuel rest module dependents
termination_by (fuel, entries.length)
decreasing_by
· exact Prod.Lex.left _ _ (Nat.lt_succ_self fuel2)
· exact Prod.Lex.right _ (by simp [Nat.lt_succ_self])
· rcases fuel with _ | fuel2
  · exact Prod.Lex.right _ (by simp [Nat.lt_succ_self])
  · exact Prod.Lex.right _ (by simp [Nat.lt_succ_self])

/-- `get_dependents`: all modules depending on `target_module`, directly or
transitively.  The initial fuel `g.length` bounds the recursion depth. -/
def get_dependents (g : Graph) (target_module : String) :
    Option (List String) :=
  find_dependents_scan g g.length g target_module []

/-- The number of graph keys not yet collected — the quantity the
already-in-the-result guard makes strictly decrease across nested calls. -/
def missingCount (g : Graph) (d : List String) : Nat :=
  ((keys g).dedup.filter (fun k => decide (k ∉ d))).length

theorem missingCount_le (g : Graph) (d d' : List String)
    (h : ∀ x ∈ d, x ∈ d') : missingCount g d' ≤ missingCount g d := by
  apply List.Sublist.length_le
  apply List.monotone_filter_right
  intro a ha
  simp only [decide_eq_true_eq] at ha ⊢
  intro hmem
  exact ha (h a hmem)

theorem missingCount_lt (g : Graph) (d : List String) (node : String)
    (hk : node ∈ keys g) (hd : node ∉ d) :
    missingCount g (d ++ [node]) < missingCount g d := by
  have hsub : List.Sublist
      ((keys g).dedup.filter (fun k => decide (k ∉ d ++ [node])))
      ((keys g).dedup.filter (fun k => decide (k ∉ d))) := by
    apply List.monotone_filter_right
    intro a ha
    simp only [decide_eq_true_eq, List.mem_append] at ha ⊢
    intro hmem
    exact ha (Or.inl hmem)
  rcases Nat.lt_or_ge ((keys g).dedup.filter
      (fun k => decide (k ∉ d ++ [node]))).length
      ((keys g).dedup.filter (fun k => decide (k ∉ d))).length with h | h
  · exact h
  · exfalso
    have heq := hsub.eq_of_length_le h
    have h1 : node ∈ (keys g).dedup.filter (fun k => decide (k ∉ d)) := by
      simp [List.mem_filter, List.mem_dedup, hk, hd]
    have h2 : node ∈ (keys g).dedup.filter
        (fun k => decide (k ∉ d ++ [node])) := heq ▸ h1
    simp [List.mem_filter] at h2

theorem scan_mono (g : Graph) :
    ∀ (fuel : Nat) (entries : List (String × List String)) (m : String)
      (d r : List String),
      find_dependents_scan g fuel entries m d = some r → ∀ x ∈ d, x ∈ r := by
  intro fuel
  induction fuel with
  | zero =>
    intro entries
    induction entries with
    | nil =>
      intro m d r h x hx
      simp only [find_dependents_scan] at h
      cases h
      exact hx
    | cons p rest ihe =>
      obtain ⟨node, deps⟩ := p
      intro m d r h x hx
      simp only [find_dependents_scan] at h
      split at h
      · cases h
      · exact ihe m d r h x hx
  | succ fuel2 ihf =>
    intro entries
    induction entries with
    | nil =>
      intro m d r h x hx
      simp only [find_dependents_scan] at h
      cases h
      exact hx
    | cons p rest ihe =>
      obtain ⟨node, deps⟩ := p
      intro m d r h x hx
      simp only [find_dependents_scan] at h
      split at h
      · rcases hscan : find_dependents_scan g fuel2 g node (d ++ [node]) with
          _ | d2
        · rw [hscan] at h
          cases h
        · rw [hscan] at h
          have hxd2 : x ∈ d2 :=
            ihf g node (d ++ [node]) d2 hscan x (by simp [hx])
          exact ihe m d2 r h x hxd2
      · exact ihe m d r h x hx

theorem mem_keys_of_mem {g : List (String × α)} {node : String} {v : α}
    (h : (node, v) ∈ g) : node ∈ keys g := by
  induction g with
  | nil => simp at h
  | cons p rest ih =>
    rcases (by simpa using h : (node, v) = p ∨ (node, v) ∈ rest) with he | he
    · simp [mem_keys_cons, ← he]
    · simp [mem_keys_cons, ih he]

theorem keys_length (g : List (String × α)) : (keys g).length = g.length := by
  induction g with
  | nil => rfl
  | cons p rest ih =>
    obtain ⟨k, v⟩ := p
    simp [keys, ih]

/-- `x` depends on `t` directly or transitively through the recorded
dependency lists: some entry of the graph pairs `x` with a list containing
`t`, or containing an intermediate module that itself depends on `t`. -/
inductive DependsOnT (g : Graph) (t : String) : String → Prop where
  | direct {node : String} {deps : List String} :
      (node, deps) ∈ g → t ∈ deps → DependsOnT g t node
  | step {node m : String} {deps : List String} :
      (node, deps) ∈ g → m ∈ deps → DependsOnT g t m → DependsOnT g t node

theorem scan_isSome (g : Graph) :
    ∀ (fuel : Nat) (entries : List (String × List String)) (m : String)
      (d : List String),
      (∀ p ∈ entries, p ∈ g) → missingCount g d ≤ fuel →
      ∃ r, find_dependents_scan g fuel entries m d = some r := by
  intro fuel
  induction fuel with
  | zero =>
    intro entries
    induction entries with
    | nil =>
      intro m d hent hfuel
      exact ⟨d, by simp [find_dependents_scan]⟩
    | cons p rest ihe =>
      obtain ⟨node, deps⟩ := p
      intro m d hent hfuel
      have hrest : ∀ p ∈ rest, p ∈ g := fun p hp => hent p (by simp [hp])
      by_cases hcond : m ∈ deps ∧ node ∉ d
      · exfalso
        have hk : node ∈ keys g :=
          mem_keys_of_mem (hent (node, deps) (by simp))
        have : 0 < missingCount g d := by
          have hmem : node ∈ (keys g).dedup.filter
              (fun k => decide (k ∉ d)) := by
            simp [List.mem_filter, List.mem_dedup, hk, hcond.2]
          unfold missingCount
          refine List.length_pos.mpr (fun he => ?_)
          rw [he] at hmem
          simp at hmem
        omega
      · obtain ⟨r, hr⟩ := ihe m d hrest hfuel
        refine ⟨r, ?_⟩
        simp only [find_dependents_scan]
        split
        · exact absurd (by assumption) hcond
        · exact hr
  | succ fuel2 ihf =>
    intro entries
    induction entries with
    | nil =>
      intro m d hent hfuel
      exact ⟨d, by simp [find_dependents_scan]⟩
    | cons p rest ihe =>
      obtain ⟨node, deps⟩ := p
      intro m d hent hfuel
      have hrest : ∀ p ∈ rest, p ∈ g := fun p hp => hent p (by simp [hp])
      by_cases hcond : m ∈ deps ∧ node ∉ d
      · have hk : node ∈ keys g :=
          mem_keys_of_mem (hent (node, deps) (by simp))
        have hlt : missingCount g (d ++ [node]) < missingCount g d :=
          missingCount_lt g d node hk hcond.2
        obtain ⟨d2, hd2⟩ := ihf g node (d ++ [node]) (fun p hp => hp)
          (by omega)
        have hmono : ∀ x ∈ d ++ [node], x ∈ d2 :=
          scan_mono g fuel2 g node (d ++ [node]) d2 hd2
        have hle : missingCount g d2 ≤ missingCount g (d ++ [node]) :=
          missingCount_le g (d ++ [node]) d2 hmono
        obtain ⟨r, hr⟩ := ihe m d2 hrest (by omega)
        refine ⟨r, ?_⟩
        simp only [find_dependents_scan]
        split
        · rw [hd2]
          exact hr
        · exact absurd hcond (by assumption)
      · obtain ⟨r, hr⟩ := ihe m d hrest hfuel
        refine ⟨r, ?_⟩
        simp only [find_dependents_scan]
        split
        · exact absurd (by assumption) hcond
        · exact hr

theorem get_dependents_total (g : Graph) (t : String) :
    ∃ r, get_dependents g t = some r := by
  apply scan_isSome g g.length g t [] (fun p hp => hp)
  have h1 : ((keys g).dedup.filter (fun k => decide (k ∉ ([] : List String)))).length
      ≤ (keys g).dedup.length := by
    exact List.Sublist.length_le (List.filter_sublist _)
  have h2 : (keys g).dedup.length ≤ (keys g).length :=
    List.Sublist.length_le (List.dedup_sublist _)
  have h3 := keys_length g
  unfold missingCount
  omega

theorem scan_direct (g : Graph) :
    ∀ (fuel : Nat) (entries : List (String × List String)) (m : String)
      (d r : List String),
      find_dependents_scan g fuel entries m d = some r →
      ∀ node deps, (node, deps) ∈ entries → m ∈ deps → node ∈ r := by
  intro fuel
  induction fuel with
  | zero =>
    intro entries
    induction entries with
    | nil =>
      intro m d r h node deps hmem hm
      simp at hmem
    | cons p rest ihe =>
      obtain ⟨node0, deps0⟩ := p
      intro m d r h node deps hmem hm
      simp only [find_dependents_scan] at h
      split at h
      · cases h
      · rename_i hcond
        rcases (by simpa using hmem :
            (node = node0 ∧ deps = deps0) ∨ (node, deps) ∈ rest) with
            ⟨he1, he2⟩ | he
        · subst he1
          subst he2
          have hnd : node ∈ d := by
            by_contra hnd
            exact hcond ⟨hm, hnd⟩
          exact scan_mono g 0 rest m d r h node hnd
        · exact ihe m d r h node deps he hm
  | succ fuel2 ihf =>
    intro entries
    induction entries with
    | nil =>
      intro m d r h node deps hmem hm
      simp at hmem
    | cons p rest ihe =>
      obtain ⟨node0, deps0⟩ := p
      intro m d r h node deps hmem hm
      simp only [find_dependents_scan] at h
      split at h
      · rcases hscan : find_dependents_scan g fuel2 g node0 (d ++ [node0])
            with _ | d2
        · rw [hscan] at h
          cases h
        · rw [hscan] at h
          rcases (by simpa using hmem :
              (node = node0 ∧ deps = deps0) ∨ (node, deps) ∈ rest) with
              ⟨he1, he2⟩ | he
          · have hin : node ∈ d2 :=
              scan_mono g fuel2 g node0 (d ++ [node0]) d2 hscan node
                (by simp [he1])
            exact scan_mono g (fuel2 + 1) rest m d2 r h node hin
          · exact ihe m d2 r h node deps he hm
      · rename_i hcond
        rcases (by simpa using hmem :
            (node = node0 ∧ deps = deps0) ∨ (node, deps) ∈ rest) with
            ⟨he1, he2⟩ | he
        · subst he1
          subst he2
          have hnd : node ∈ d := by
            by_contra hnd
            exact hcond ⟨hm, hnd⟩
          exact scan_mono g (fuel2 + 1) rest m d r h node hnd
        · exact ihe m d r h node deps he hm

/-- Every module whose dependency list mentions `x` is in the set `r`:
the full-scan guarantee `find_dependents(x)` establishes for its argument. -/
def Scanned (g : Graph) (x : String) (r : List String) : Prop :=
  ∀ node deps, (node, deps) ∈ g → x ∈ deps → node ∈ r

theorem scanned_mono {g : Graph} {x : String} {r r' : List String}
    (h : Scanned g x r) (hsub : ∀ y ∈ r, y ∈ r') : Scanned g x r' :=
  fun node deps hmem hx => hsub node (h node deps hmem hx)

theorem scan_closed (g : Graph) :
    ∀ (fuel : Nat) (entries : List (String × List String)) (m : String)
      (d r : List String),
      find_dependents_scan g fuel entries m d = some r →
      ∀ x ∈ r, x ∉ d → Scanned g x r := by
  intro fuel
  induction fuel with
  | zero =>
    intro entries
    induction entries with
    | nil =>
      intro m d r h x hx hxd
      simp only [find_dependents_scan] at h
      cases h
      exact absurd hx hxd
    | cons p rest ihe =>
      obtain ⟨node0, deps0⟩ := p
      intro m d r h x hx hxd
      simp only [find_dependents_scan] at h
      split at h
      · cases h
      · exact ihe m d r h x hx hxd
  | succ fuel2 ihf =>
    intro entries
    induction entries with
    | nil =>
      intro m d r h x hx hxd
      simp only [find_dependents_scan] at h
      cases h
      exact absurd hx hxd
    | cons p rest ihe =>
      obtain ⟨node0, deps0⟩ := p
      intro m d r h x hx hxd
      simp only [find_dependents_scan] at h
      split at h
      · rcases hscan : find_dependents_scan g fuel2 g node0 (d ++ [node0])
            with _ | d2
        · rw [hscan] at h
          cases h
        · rw [hscan] at h
          have hd2r : ∀ y ∈ d2, y ∈ r :=
            scan_mono g (fuel2 + 1) rest m d2 r h
          by_cases hx2 : x ∈ d2
          · by_cases hxn : x = node0
            · subst hxn
              have hs : Scanned g x d2 := fun node deps hmem hdep =>
                scan_direct g fuel2 g x (d ++ [x]) d2 hscan node deps hmem hdep
              exact scanned_mono hs hd2r
            · have hxdn : x ∉ d ++ [node0] := by
                simp [hxd, hxn]
              have hs : Scanned g x d2 :=
                ihf g node0 (d ++ [node0]) d2 hscan x hx2 hxdn
              exact scanned_mono hs hd2r
          · exact ihe m d2 r h x hx hx2
      · exact ihe m d r h x hx hxd

theorem scan_sound (g : Graph) (t : String) :
    ∀ (fuel : Nat) (entries : List (String × List String)) (m : String)
      (d r : List String),
      (∀ p ∈ entries, p ∈ g) →
      find_dependents_scan g fuel entries m d = some r →
      (m = t ∨ DependsOnT g t m) →
      (∀ x ∈ d, DependsOnT g t x) →
      ∀ x ∈ r, DependsOnT g t x := by
  intro fuel
  induction fuel with
  | zero =>
    intro entries
    induction entries with
    | nil =>
      intro m d r hent h hm hd x hx
      simp only [find_dependents_scan] at h
      cases h
      exact hd x hx
    | cons p rest ihe =>
      obtain ⟨node0, deps0⟩ := p
      intro m d r hent h hm hd x hx
      have hrest : ∀ p ∈ rest, p ∈ g := fun p hp => hent p (by simp [hp])
      simp only [find_dependents_scan] at h
      split at h
      · cases h
      · exact ihe m d r hrest h hm hd x hx
  | succ fuel2 ihf =>
    intro entries
    induction entries with
    | nil =>
      intro m d r hent h hm hd x hx
      simp only [find_dependents_scan] at h
      cases h
      exact hd x hx
    | cons p rest ihe =>
      obtain ⟨node0, deps0⟩ := p
      intro m d r hent h hm hd x hx
      have hrest : ∀ p ∈ rest, p ∈ g := fun p hp => hent p (by simp [hp])
      have hp0 : (node0, deps0) ∈ g := hent (node0, deps0) (by simp)
      simp only [find_dependents_scan] at h
      split at h
      · rename_i hcond
        rcases hscan : find_dependents_scan g fuel2 g node0 (d ++ [node0])
            with _ | d2
        · rw [hscan] at h
          cases h
        · rw [hscan] at h
          have hnode0 : DependsOnT g t node0 := by
            rcases hm with he | hdep
            · exact DependsOnT.direct hp0 (he ▸ hcond.1)
            · exact DependsOnT.step hp0 hcond.1 hdep
          have hdn : ∀ y ∈ d ++ [node0], DependsOnT g t y := by
            intro y hy
            rcases (by simpa using hy : y ∈ d ∨ y = node0) with hyd | hyn
            · exact hd y hyd
            · exact hyn ▸ hnode0
          have hd2 : ∀ y ∈ d2, DependsOnT g t y :=
            ihf g node0 (d ++ [node0]) d2 (fun p hp => hp) hscan
              (Or.inr hnode0) hdn
          exact ihe m d2 r hrest h hm hd2 x hx
      · exact ihe m d r hrest h hm hd x hx

/-- `get_dependents` always returns a set, and its members are exactly the
modules that transitively depend on the target. -/
theorem get_dependents_spec (g : Graph) (t : String) :
    ∃ r, get_dependents g t = some r ∧
      ∀ x, x ∈ r ↔ DependsOnT g t x := by
  obtain ⟨r, hr⟩ := get_dependents_total g t
  refine ⟨r, hr, fun x => ⟨?_, ?_⟩⟩
  · intro hx
    exact scan_sound g t g.length g t [] r (fun p hp => hp) hr
      (Or.inl rfl) (by simp) x hx
  · intro hdep
    induction hdep with
    | direct hmem ht =>
      exact scan_direct g g.length g t [] r hr _ _ hmem ht
    | step hmem hm _ ih =>
      exact scan_closed g g.length g t [] r hr _ ih (by simp) _ _ hmem hm

/-! ### Topological sort (`topological_sort`)

Kahn's algorithm over the reversed graph.  `reverse_graph` maps each node
to the modules that depend on it; `in_degree` counts, per module, its
dependencies that are themselves graph keys (Python ints, embedded as
`Int`).  A FIFO queue holds the ready modules. -/

/-- `{node: [] for node in dependency_graph}`. -/
def init_reverse_graph : Graph → List (String × List String)
  | [] => []
  | (node, _) :: rest => (node, []) :: init_reverse_graph rest

/-- `{node: 0 for node in dependency_graph}`. -/
def init_in_degree : Graph → List (String × Int)
  | [] => []
  | (node, _) :: rest => (node, (0 : Int)) :: init_in_degree rest

/-- The body of the edge loop: `if dep in reverse_graph:
reverse_graph[dep].append(node); in_degree[node] += 1`. -/
def add_edge (st : List (String × List String) × List (String × Int))
    (node dep : String) :
    List (String × List String) × List (String × Int) :=
  if (dlookup st.1 dep).isSome then
    (dmodify st.1 dep (fun l => l ++ [node]),
     dmodify st.2 node (fun c => c + 1))
  else st

/-- Inner loop `for dep in dependencies`. -/
def add_edges_for (st : List (String × List String) × List (String × Int))
    (node : String) (deps : List String) :
    List (String × List String) × List (String × Int) :=
  deps.foldl (fun st dep => add_edge st node dep) st

/-- The reverse graph and in-degree table after the edge loops. -/
def build_state (g : Graph) :
    List (String × List String) × List (String × Int) :=
  g.foldl (fun st p => add_edges_for st p.1 p.2)
    (init_reverse_graph g, init_in_degree g)

/-- `[node for node in in_degree if in_degree[node] == 0]`. -/
def initial_queue : List (String × Int) → List String
  | [] => []
  | (node, c) :: rest =>
    if c = 0 then node :: initial_queue rest else initial_queue rest

/-- The dependents loop: for each `dependent` of the popped node decrement
its in-degree and enqueue it when the count reaches zero. -/
def process_dependents (deg : List (String × Int)) (queue : List String) :
    List String → List (String × Int) × List String
  | [] => (deg, queue)
  | dependent :: rest =>
    let deg2 := dmodify deg dependent (fun c => c - 1)
    if dlookup deg2 dependent = some 0 then
      process_dependents deg2 (queue ++ [dependent]) rest
    else
      process_dependents deg2 queue rest

/-- Number of entries of the in-degree table that are still positive; with
the queue length this bounds the remaining iterations of the while loop. -/
def posCount (deg : List (String × Int)) : Nat :=
  (deg.filter (fun p => decide (0 < p.2))).length

theorem posCount_cons (k : String) (v : Int) (rest : List (String × Int)) :
    posCount ((k, v) :: rest) = (if 0 < v then 1 else 0) + posCount rest := by
  by_cases h : 0 < v <;> simp [posCount, List.filter_cons, h, Nat.add_comm]

theorem posCount_dmodify_sub_le (deg : List (String × Int)) (k : String) :
    posCount (dmodify deg k (fun c => c - 1)) ≤ posCount deg := by
  induction deg with
  | nil => simp [dmodify, posCount]
  | cons p rest ih =>
    obtain ⟨k2, v⟩ := p
    by_cases hk : k2 = k
    · simp only [dmodify, hk, if_true, posCount_cons]
      by_cases hv : 0 < v - 1 <;> by_cases hv2 : 0 < v <;>
        simp only [hv, hv2, if_true, if_false] <;> omega
    · simp only [dmodify, hk, if_false, posCount_cons]
      omega

theorem posCount_dmodify_sub_lt (deg : List (String × Int)) (k : String)
    (h : dlookup deg k = some 1) :
    posCount (dmodify deg k (fun c => c - 1)) < posCount deg := by
  induction deg with
  | nil => simp [dlookup] at h
  | cons p rest ih =>
    obtain ⟨k2, v⟩ := p
    by_cases hk : k2 = k
    · have hv : v = 1 := by
        simp [dlookup, hk] at h
        omega
      subst hv
      have hle := posCount_dmodify_sub_le rest k
      simp only [dmodify, hk, if_true, posCount_cons]
      norm_num
      omega
    · have hrest : dlookup rest k = some 1 := by
        simpa [dlookup, hk] using h
      have := ih hrest
      simp only [dmodify, hk, if_false, posCount_cons]
      omega

theorem process_dependents_measure (deg : List (String × Int))
    (queue : List String) (l : List String) :
    posCount (process_dependents deg queue l).1 +
      (process_dependents deg queue l).2.length ≤
      posCount deg + queue.length := by
  induction l generalizing deg queue with
  | nil => simp [process_dependents]
  | cons dependent rest ih =>
    simp only [process_dependents]
    by_cases hq : dlookup (dmodify deg dependent (fun c => c - 1))
        dependent = some 0
    · have hpre : dlookup deg dependent = some 1 := by
        rw [dlookup_dmodify] at hq
        simp at hq
        rcases hv : dlookup deg dependent with _ | v
        · rw [hv] at hq
          simp at hq
        · rw [hv] at hq
          simp at hq
          simp [hv]
          omega
      have hlt := posCount_dmodify_sub_lt deg dependent hpre
      have := ih (dmodify deg dependent (fun c => c - 1))
        (queue ++ [dependent])
      simp only [hq, if_true]
      simp at this ⊢
      omega
    · have hle := posCount_dmodify_sub_le deg dependent
      have := ih (dmodify deg dependent (fun c => c - 1)) queue
      simp only [hq, if_false]
      omega

/-- The while loop of `topological_sort`: pop the queue head, append it to
the result, then decrement the in-degrees of its reverse-graph dependents,
enqueueing those that reach zero.  (The `getD []` default is unreachable:
every queued name is a key of the reverse graph.) -/
def sortLoop (rev : List (String × List String))
    (deg : List (String × Int)) (queue result : List String) :
    List String :=
  match queue with
  | [] => result
  | current :: qrest =>
    let processed := process_dependents deg qrest ((dlookup rev current).getD [])
    sortLoop rev processed.1 processed.2 (result ++ [current])
termination_by posCount deg + queue.length
decreasing_by
  refine Nat.lt_of_le_of_lt (process_dependents_measure _ _ _) ?_
  simp only [List.length_cons]
  omega

/-- Errors of the discovery script: a detected dependency cycle (carrying
the unresolved names) or a query for a module absent from the graph. -/
inductive DiscoverError where
  | circular (remaining : List String)
  | moduleNotFound (target_module : String)
deriving DecidableEq

/-- The list built by the while loop of `topological_sort`. -/
def kahn_order (g : Graph) : List String :=
  sortLoop (build_state g).1 (build_state g).2
    (initial_queue (build_state g).2) []

/-- `topological_sort`: build order with dependencies first, or a
`CircularDependencyError` carrying `set(graph) - set(result)`. -/
def topological_sort (g : Graph) : Except DiscoverError (List String) :=
  if (kahn_order g).length ≠ g.length then
    Except.error (DiscoverError.circular
      ((keys g).filter (fun k => decide (k ∉ kahn_order g))))
  else
    Except.ok (kahn_order g)

/-- Python `list.index`: position of the first occurrence, if any. -/
def list_index (l : List String) (target_module : String) : Option Nat :=
  match l with
  | [] => none
  | a :: rest =>
    if a = target_module then some 0
    else (list_index rest target_module).map (fun i => i + 1)

/-- `get_dependencies_up_to`: the full build order truncated just after the
target module; `ModuleNotFoundError` when the target is not in the order. -/
def get_dependencies_up_to (g : Graph) (target_module : String) :
    Except DiscoverError (List String) :=
  match topological_sort g with
  | Except.error e => Except.error e
  | Except.ok full_order =>
    match list_index full_order target_module with
    | some i => Except.ok (full_order.take (i + 1))
    | none => Except.error (DiscoverError.moduleNotFound target_module)

/-! ### Specification-side notions for the sorter -/

/-- `x` has an in-graph edge to `d`: `d` occurs in `x`'s recorded
dependency list and is itself a graph key. -/
def Edge (g : Graph) (x d : String) : Prop :=
  d ∈ depsOf g x ∧ d ∈ keys g

instance (g : Graph) (x d : String) : Decidable (Edge g x d) := by
  unfold Edge
  infer_instance

/-- Position of the first occurrence (length when absent). -/
def posOf (l : List String) (x : String) : Nat :=
  (list_index l x).getD l.length

/-- The in-graph dependency occurrences of `x` not yet placed in `result` —
the semantic value of `in_degree[x]` while the loop runs. -/
def remDeg (g : Graph) (result : List String) (x : String) : Nat :=
  ((depsOf g x).filter (fun d => decide (d ∈ keys g ∧ d ∉ result))).length

/-- Every in-graph dependency of `x` has been placed in `result`. -/
def DepsDone (g : Graph) (result : List String) (x : String) : Prop :=
  ∀ d ∈ depsOf g x, d ∈ keys g → d ∈ result

theorem remDeg_eq_zero_iff (g : Graph) (result : List String) (x : String) :
    remDeg g result x = 0 ↔ DepsDone g result x := by
  unfold remDeg DepsDone
  rw [List.length_eq_zero, List.filter_eq_nil_iff]
  constructor
  · intro h d hd hk
    have := h d hd
    simp only [decide_eq_true_eq, not_and, not_not] at this
    exact this hk
  · intro h d hd
    simp only [decide_eq_true_eq, not_and, not_not]
    exact fun hk => h d hd hk

theorem depsDone_mono {g : Graph} {result result' : List String} {x : String}
    (h : DepsDone g result x) (hsub : ∀ y ∈ result, y ∈ result') :
    DepsDone g result' x :=
  fun d hd hk => hsub d (h d hd hk)

theorem filter_notMem_append_split (ds : List String) (P : String → Prop)
    [DecidablePred P] (result : List String) (current : String)
    (hP : P current) (hr : current ∉ result) :
    (ds.filter (fun d => decide (P d ∧ d ∉ result))).length =
      (ds.filter (fun d => decide (P d ∧ d ∉ result ++ [current]))).length +
        ds.count current := by
  induction ds with
  | nil => simp
  | cons d ds ih =>
    by_cases hdc : d = current
    · subst hdc
      rw [List.filter_cons_of_pos (by simp [hP, hr]),
        List.filter_cons_of_neg (by simp)]
      simp only [List.length_cons, List.count_cons_self]
      omega
    · have hmemiff : d ∉ result ++ [current] ↔ d ∉ result := by
        simp [hdc]
      have hcnt : (d :: ds).count current = ds.count current := by
        simp [List.count_cons, hdc]
      rw [hcnt]
      by_cases hc : P d ∧ d ∉ result
      · rw [List.filter_cons_of_pos (by simp [hc.1, hc.2]),
          List.filter_cons_of_pos (by simp [hc.1, hmemiff.mpr hc.2])]
        simp only [List.length_cons]
        omega
      · have hc2 : ¬ (P d ∧ d ∉ result ++ [current]) := by
          intro hcon
          exact hc ⟨hcon.1, hmemiff.mp hcon.2⟩
        rw [List.filter_cons_of_neg (by simpa using hc),
          List.filter_cons_of_neg (by simpa using hc2)]
        exact ih

theorem remDeg_append (g : Graph) (result : List String) (current x : String)
    (hk : current ∈ keys g) (hr : current ∉ result) :
    remDeg g result x =
      remDeg g (result ++ [current]) x + (depsOf g x).count current := by
  unfold remDeg
  exact filter_notMem_append_split (depsOf g x) (fun d => d ∈ keys g)
    result current hk hr

/-- Occurrence count of key-filtered dependencies: the initial in-degree. -/
def inKeysCount (g : Graph) (deps : List String) : Nat :=
  (deps.filter (fun d => decide (d ∈ keys g))).length

theorem remDeg_nil (g : Graph) (x : String) :
    remDeg g [] x = inKeysCount g (depsOf g x) := by
  unfold remDeg inKeysCount
  congr 1
  apply List.filter_congr
  intro d _
  simp

/-- The reverse-graph adjacency list `reverse_graph[d]` built by the edge
loops: for each graph entry in order, one copy of the entry's name per
occurrence of `d` in its dependency list. -/
def revListOf (entries : List (String × List String)) (d : String) :
    List String :=
  match entries with
  | [] => []
  | (node, deps) :: rest =>
    List.replicate (deps.count d) node ++ revListOf rest d

theorem mem_revListOf {entries : List (String × List String)} {d y : String}
    (h : y ∈ revListOf entries d) : y ∈ keys entries := by
  induction entries with
  | nil => simp [revListOf] at h
  | cons p rest ih =>
    obtain ⟨node, deps⟩ := p
    rcases (by simpa [revListOf] using h :
        y ∈ List.replicate (deps.count d) node ∨ y ∈ revListOf rest d) with
        he | he
    · have := List.eq_of_mem_replicate he
      simp [mem_keys_cons, this]
    · simp [mem_keys_cons, ih he]

theorem count_revListOf_of_lookup (entries : List (String × List String))
    (hnd : (keys entries).Nodup) (x current : String) (depsx : List String)
    (hx : dlookup entries x = some depsx) :
    (revListOf entries current).count x = depsx.count current := by
  induction entries with
  | nil => simp [dlookup] at hx
  | cons p rest ih =>
    obtain ⟨node, deps⟩ := p
    have hnd2 : (keys rest).Nodup := by
      simpa [keys] using hnd.of_cons
    by_cases hn : node = x
    · subst hn
      have hdeps : deps = depsx := by
        simpa [dlookup] using hx
      subst hdeps
      have hout : node ∉ keys rest := by
        simpa [keys] using (List.nodup_cons.mp (by simpa [keys] using hnd)).1
      have hzero : (revListOf rest current).count node = 0 := by
        rw [List.count_eq_zero]
        intro hmem
        exact hout (mem_revListOf hmem)
      simp [revListOf, List.count_append, List.count_replicate, hzero]
    · have hrest : dlookup rest x = some depsx := by
        simpa [dlookup, hn] using hx
      have hne : ¬ x = node := fun he => hn he.symm
      simp [revListOf, List.count_append, List.count_replicate, hne, hn,
        ih hnd2 hrest]

theorem count_revListOf_of_not_mem (entries : List (String × List String))
    (x current : String) (hx : x ∉ keys entries) :
    (revListOf entries current).count x = 0 := by
  rw [List.count_eq_zero]
  intro hmem
  exact hx (mem_revListOf hmem)

theorem keys_init_reverse_graph (g : Graph) :
    keys (init_reverse_graph g) = keys g := by
  induction g with
  | nil => rfl
  | cons p rest ih =>
    obtain ⟨node, deps⟩ := p
    simp [init_reverse_graph, keys, ih]

theorem keys_init_in_degree (g : Graph) :
    keys (init_in_degree g) = keys g := by
  induction g with
  | nil => rfl
  | cons p rest ih =>
    obtain ⟨node, deps⟩ := p
    simp [init_in_degree, keys, ih]

theorem dlookup_init_reverse_graph (g : Graph) (d : String)
    (hd : d ∈ keys g) : dlookup (init_reverse_graph g) d = some [] := by
  induction g with
  | nil => simp [keys] at hd
  | cons p rest ih =>
    obtain ⟨node, deps⟩ := p
    by_cases hn : node = d
    · simp [init_reverse_graph, dlookup, hn]
    · have hrest : d ∈ keys rest := by
        rcases mem_keys_cons.mp hd with he | he
        · exact absurd he.symm hn
        · exact he
      simp [init_reverse_graph, dlookup, hn, ih hrest]

theorem dlookup_init_in_degree (g : Graph) (d : String)
    (hd : d ∈ keys g) : dlookup (init_in_degree g) d = some 0 := by
  induction g with
  | nil => simp [keys] at hd
  | cons p rest ih =>
    obtain ⟨node, deps⟩ := p
    by_cases hn : node = d
    · simp [init_in_degree, dlookup, hn]
    · have hrest : d ∈ keys rest := by
        rcases mem_keys_cons.mp hd with he | he
        · exact absurd he.symm hn
        · exact he
      simp [init_in_degree, dlookup, hn, ih hrest]

theorem keys_add_edge_fst
    (st : List (String × List String) × List (String × Int))
    (node dep : String) : keys (add_edge st node dep).1 = keys st.1 := by
  unfold add_edge
  split
  · simp [keys_dmodify]
  · rfl

theorem keys_add_edge_snd
    (st : List (String × List String) × List (String × Int))
    (node dep : String) : keys (add_edge st node dep).2 = keys st.2 := by
  unfold add_edge
  split
  · simp [keys_dmodify]
  · rfl

theorem keys_add_edges_for_fst
    (st : List (String × List String) × List (String × Int))
    (node : String) (deps : List String) :
    keys (add_edges_for st node deps).1 = keys st.1 := by
  induction deps generalizing st with
  | nil => rfl
  | cons dep rest ih =>
    have hstep : add_edges_for st node (dep :: rest) =
        add_edges_for (add_edge st node dep) node rest := rfl
    rw [hstep, ih, keys_add_edge_fst]

theorem keys_add_edges_for_snd
    (st : List (String × List String) × List (String × Int))
    (node : String) (deps : List String) :
    keys (add_edges_for st node deps).2 = keys st.2 := by
  induction deps generalizing st with
  | nil => rfl
  | cons dep rest ih =>
    have hstep : add_edges_for st node (dep :: rest) =
        add_edges_for (add_edge st node dep) node rest := rfl
    rw [hstep, ih, keys_add_edge_snd]

theorem add_edges_for_fst
    (st : List (String × List String) × List (String × Int))
    (node : String) (deps : List String) (d : String) :
    dlookup (add_edges_for st node deps).1 d =
      (dlookup st.1 d).map
        (fun l => l ++ List.replicate (deps.count d) node) := by
  induction deps generalizing st with
  | nil =>
    rcases hl : dlookup st.1 d with _ | l <;> simp [add_edges_for, hl]
  | cons dep rest ih =>
    have hstep : add_edges_for st node (dep :: rest) =
        add_edges_for (add_edge st node dep) node rest := rfl
    rw [hstep, ih]
    unfold add_edge
    by_cases hsome : (dlookup st.1 dep).isSome
    · simp only [hsome, if_true]
      by_cases hd : d = dep
      · subst hd
        rw [dlookup_dmodify]
        rcases hl : dlookup st.1 d with _ | l
        · simp
        · simp [List.count_cons_self, List.replicate_succ,
            List.append_assoc]
      · have hd' : ¬ dep = d := fun he => hd he.symm
        rw [dlookup_dmodify]
        simp [hd, List.count_cons, hd']
    · simp only [hsome, if_false]
      by_cases hd : d = dep
      · subst hd
        have hnone : dlookup st.1 d = none :=
          Option.not_isSome_iff_eq_none.mp hsome
        simp [hnone]
      · have hd' : ¬ dep = d := fun he => hd he.symm
        simp [List.count_cons, hd']

/-- The in-degree contribution of the processed entries to key `x`:
for each entry named `x`, the number of its dependencies lying in `K`. -/
def degSum (K : List String) (entries : List (String × List String))
    (x : String) : Int :=
  match entries with
  | [] => 0
  | (node, deps) :: rest =>
    (if x = node then ((deps.filter (fun d => decide (d ∈ K))).length : Int)
      else 0) + degSum K rest x

theorem add_edges_for_snd
    (st : List (String × List String) × List (String × Int))
    (node : String) (deps : List String) (x : String) :
    dlookup (add_edges_for st node deps).2 x =
      (dlookup st.2 x).map (fun c => c +
        (if x = node then
          ((deps.filter (fun d => decide (d ∈ keys st.1))).length : Int)
        else 0)) := by
  induction deps generalizing st with
  | nil =>
    rcases hc : dlookup st.2 x with _ | c <;> simp [add_edges_for, hc]
  | cons dep rest ih =>
    have hstep : add_edges_for st node (dep :: rest) =
        add_edges_for (add_edge st node dep) node rest := rfl
    rw [hstep, ih, keys_add_edge_fst]
    unfold add_edge
    by_cases hsome : (dlookup st.1 dep).isSome
    · have hdep : dep ∈ keys st.1 := dlookup_isSome_iff.mp hsome
      simp only [hsome, if_true]
      rw [dlookup_dmodify]
      by_cases hx : x = node
      · subst hx
        rcases hc : dlookup st.2 x with _ | c
        · simp
        · simp [List.filter_cons, hdep]
          omega
      · simp [hx]
    · have hdep : dep ∉ keys st.1 := fun hm =>
        hsome (dlookup_isSome_iff.mpr hm)
      simp only [hsome, if_false]
      by_cases hx : x = node
      · subst hx
        rcases hc : dlookup st.2 x with _ | c
        · simp [hc]
        · simp [hc, List.filter_cons, hdep]
      · simp [hx]

theorem fold_entries_fst (entries : List (String × List String)) :
    ∀ (st : List (String × List String) × List (String × Int)) (d : String),
      dlookup (entries.foldl (fun st p => add_edges_for st p.1 p.2) st).1 d =
        (dlookup st.1 d).map (fun l => l ++ revListOf entries d) := by
  induction entries with
  | nil =>
    intro st d
    rcases hl : dlookup st.1 d with _ | l <;> simp [revListOf, hl]
  | cons p rest ih =>
    obtain ⟨node, deps⟩ := p
    intro st d
    rw [List.foldl_cons, ih, add_edges_for_fst]
    rcases dlookup st.1 d with _ | l <;>
      simp [revListOf, List.append_assoc]

theorem fold_entries_keys_fst (entries : List (String × List String)) :
    ∀ (st : List (String × List String) × List (String × Int)),
      keys (entries.foldl (fun st p => add_edges_for st p.1 p.2) st).1 =
        keys st.1 := by
  induction entries with
  | nil => intro st; rfl
  | cons p rest ih =>
    intro st
    rw [List.foldl_cons, ih, keys_add_edges_for_fst]

theorem fold_entries_keys_snd (entries : List (String × List String)) :
    ∀ (st : List (String × List String) × List (String × Int)),
      keys (entries.foldl (fun st p => add_edges_for st p.1 p.2) st).2 =
        keys st.2 := by
  induction entries with
  | nil => intro st; rfl
  | cons p rest ih =>
    intro st
    rw [List.foldl_cons, ih, keys_add_edges_for_snd]

theorem fold_entries_snd (entries : List (String × List String)) :
    ∀ (st : List (String × List String) × List (String × Int)) (x : String),
      dlookup (entries.foldl (fun st p => add_edges_for st p.1 p.2) st).2 x =
        (dlookup st.2 x).map (fun c => c + degSum (keys st.1) entries x) := by
  induction entries with
  | nil =>
    intro st x
    rcases hc : dlookup st.2 x with _ | c <;> simp [degSum, hc]
  | cons p rest ih =>
    obtain ⟨node, deps⟩ := p
    intro st x
    rw [List.foldl_cons, ih, keys_add_edges_for_fst, add_edges_for_snd]
    rcases dlookup st.2 x with _ | c
    · simp
    · simp only [Option.map_some, Option.map_map, degSum]
      by_cases hx : x = node <;> simp [hx, Int.add_assoc]

theorem keys_build_state_fst (g : Graph) : keys (build_state g).1 = keys g := by
  unfold build_state
  rw [fold_entries_keys_fst]
  exact keys_init_reverse_graph g

theorem keys_build_state_snd (g : Graph) : keys (build_state g).2 = keys g := by
  unfold build_state
  rw [fold_entries_keys_snd]
  exact keys_init_in_degree g

theorem dlookup_build_state_fst (g : Graph) (d : String) (hd : d ∈ keys g) :
    dlookup (build_state g).1 d = some (revListOf g d) := by
  unfold build_state
  rw [fold_entries_fst]
  have : dlookup (init_reverse_graph g, init_in_degree g).1 d = some [] :=
    dlookup_init_reverse_graph g d hd
  rw [this]
  simp

theorem dlookup_build_state_snd (g : Graph) (x : String) (hx : x ∈ keys g) :
    dlookup (build_state g).2 x = some (degSum (keys g) g x) := by
  unfold build_state
  rw [fold_entries_snd]
  have h1 : dlookup (init_reverse_graph g, init_in_degree g).2 x = some 0 :=
    dlookup_init_in_degree g x hx
  have h2 : keys (init_reverse_graph g, init_in_degree g).1 = keys g :=
    keys_init_reverse_graph g
  rw [h1, h2]
  simp

theorem degSum_eq_zero_of_not_mem (K : List String)
    (entries : List (String × List String)) (x : String)
    (hx : x ∉ keys entries) : degSum K entries x = 0 := by
  induction entries with
  | nil => rfl
  | cons p rest ih =>
    obtain ⟨node, deps⟩ := p
    have hn : ¬ x = node := fun he =>
      hx (by simp [mem_keys_cons, he])
    have hrest : x ∉ keys rest := fun he =>
      hx (by simp [mem_keys_cons, he])
    simp [degSum, hn, ih hrest]

theorem degSum_eq_inKeys (K : List String)
    (entries : List (String × List String))
    (hnd : (keys entries).Nodup) (x : String) (deps : List String)
    (hx : dlookup entries x = some deps) :
    degSum K entries x =
      ((deps.filter (fun d => decide (d ∈ K))).length : Int) := by
  induction entries with
  | nil => simp [dlookup] at hx
  | cons p rest ih =>
    obtain ⟨node, deps2⟩ := p
    have hnd2 : (keys rest).Nodup := by
      simpa [keys] using hnd.of_cons
    by_cases hn : node = x
    · subst hn
      have hdeps : deps2 = deps := by simpa [dlookup] using hx
      subst hdeps
      have hout : node ∉ keys rest := by
        simpa [keys] using (List.nodup_cons.mp (by simpa [keys] using hnd)).1
      simp [degSum, degSum_eq_zero_of_not_mem K rest node hout]
    · have hrest : dlookup rest x = some deps := by
        simpa [dlookup, hn] using hx
      have hne : ¬ x = node := fun he => hn he.symm
      simp [degSum, hne, ih hnd2 hrest]

theorem build_state_deg_remDeg (g : Graph) (hnd : (keys g).Nodup)
    (x : String) (hx : x ∈ keys g) :
    dlookup (build_state g).2 x = some ((remDeg g [] x : Nat) : Int) := by
  rw [dlookup_build_state_snd g x hx]
  obtain ⟨deps, hdeps⟩ := Option.isSome_iff_exists.mp
    (dlookup_isSome_iff.mpr hx)
  rw [degSum_eq_inKeys (keys g) g hnd x deps hdeps]
  have : remDeg g [] x = (deps.filter (fun d => decide (d ∈ keys g))).length := by
    rw [remDeg_nil]
    unfold inKeysCount depsOf
    rw [hdeps]
    rfl
  rw [this]

/-! ### The dependents-processing loop -/

theorem process_dependents_keys (deg : List (String × Int))
    (q : List String) (l : List String) :
    keys (process_dependents deg q l).1 = keys deg := by
  induction l generalizing deg q with
  | nil => rfl
  | cons dep rest ih =>
    simp only [process_dependents]
    split
    · rw [ih, keys_dmodify]
    · rw [ih, keys_dmodify]

theorem process_dependents_fst (deg : List (String × Int))
    (q : List String) (l : List String) (x : String) :
    dlookup (process_dependents deg q l).1 x =
      (dlookup deg x).map (fun c => c - (l.count x : Int)) := by
  induction l generalizing deg q with
  | nil =>
    rcases hc : dlookup deg x with _ | c <;> simp [process_dependents, hc]
  | cons dep rest ih =>
    have hstep : dlookup (dmodify deg dep (fun c => c - 1)) x =
        if x = dep then (dlookup deg x).map (fun c => c - 1)
        else dlookup deg x := dlookup_dmodify deg dep x (fun c => c - 1)
    simp only [process_dependents]
    split
    · rw [ih, hstep]
      by_cases hx : x = dep
      · subst hx
        rcases hc : dlookup deg x with _ | c
        · simp
        · simp [List.count_cons_self]
          omega
      · simp [hx, List.count_cons, fun he : dep = x => hx he.symm]
    · rw [ih, hstep]
      by_cases hx : x = dep
      · subst hx
        rcases hc : dlookup deg x with _ | c
        · simp
        · simp [List.count_cons_self]
          omega
      · simp [hx, List.count_cons, fun he : dep = x => hx he.symm]

/-- Whether processing the decrement list `l` makes `x`'s in-degree hit
exactly zero at some point (and so enqueues `x`). -/
def hitsB (deg : List (String × Int)) (l : List String) (x : String) :
    Bool :=
  match dlookup deg x with
  | none => false
  | some v => decide (1 ≤ v ∧ v ≤ (l.count x : Int))

theorem process_dependents_snd_count (deg : List (String × Int))
    (q : List String) (l : List String) (x : String) :
    (process_dependents deg q l).2.count x =
      q.count x + (if hitsB deg l x then 1 else 0) := by
  induction l generalizing deg q with
  | nil =>
    rcases hc : dlookup deg x with _ | v
    · simp [process_dependents, hitsB, hc]
    · have : ¬ (1 ≤ v ∧ v ≤ (([] : List String).count x : Int)) := by
        simp
        omega
      simp [process_dependents, hitsB, hc, this]
      omega
  | cons dep rest ih =>
    simp only [process_dependents]
    by_cases hx : x = dep
    · subst hx
      rcases hc : dlookup deg x with _ | v
      · have hc2 : dlookup (dmodify deg x (fun c => c - 1)) x = none := by
          rw [dlookup_dmodify]
          simp [hc]
        have henq : ¬ dlookup (dmodify deg x (fun c => c - 1)) x = some 0 := by
          simp [hc2]
        rw [if_neg henq, ih]
        simp [hitsB, hc, hc2]
      · have hc2 : dlookup (dmodify deg x (fun c => c - 1)) x =
            some (v - 1) := by
          rw [dlookup_dmodify]
          simp [hc]
        by_cases hv : v = 1
        · subst hv
          have henq : dlookup (dmodify deg x (fun c => c - 1)) x = some 0 := by
            simp [hc2]
          rw [if_pos henq, ih]
          have h1 : hitsB (dmodify deg x (fun c => c - 1)) rest x = false := by
            simp [hitsB, hc2]
          have h2 : hitsB deg (x :: rest) x = true := by
            simp [hitsB, hc, List.count_cons_self]
          rw [h1, h2]
          simp [List.count_append]
        · have henq : ¬ dlookup (dmodify deg x (fun c => c - 1)) x =
              some 0 := by
            simp [hc2]
            omega
          rw [if_neg henq, ih]
          have hsplit : hitsB (dmodify deg x (fun c => c - 1)) rest x =
              hitsB deg (x :: rest) x := by
            simp only [hitsB, hc, hc2, List.count_cons_self]
            have hiff : (1 ≤ v - 1 ∧ v - 1 ≤ (rest.count x : Int)) ↔
                (1 ≤ v ∧ v ≤ ((rest.count x + 1 : Nat) : Int)) := by
              push_cast
              omega
            exact decide_eq_decide.mpr hiff
          rw [hsplit]
    · have hc2 : dlookup (dmodify deg dep (fun c => c - 1)) x =
          dlookup deg x := by
        rw [dlookup_dmodify]
        simp [hx]
      have hx2 : ¬ dep = x := fun he => hx he.symm
      have hcnt : (dep :: rest).count x = rest.count x := by
        simp [List.count_cons, hx2]
      split
      · rw [ih]
        have hq : (q ++ [dep]).count x = q.count x := by
          simp [List.count_append, List.count_singleton, hx]
        rw [hq]
        have : hitsB (dmodify deg dep (fun c => c - 1)) rest x =
            hitsB deg (dep :: rest) x := by
          simp only [hitsB, hc2, hcnt]
        rw [this]
      · rw [ih]
        have : hitsB (dmodify deg dep (fun c => c - 1)) rest x =
            hitsB deg (dep :: rest) x := by
          simp only [hitsB, hc2, hcnt]
        rw [this]

theorem process_dependents_mem (deg : List (String × Int))
    (q : List String) (l : List String) (x : String) :
    x ∈ (process_dependents deg q l).2 ↔ x ∈ q ∨ hitsB deg l x = true := by
  have hcount := process_dependents_snd_count deg q l x
  constructor
  · intro hx
    have hpos : 0 < (process_dependents deg q l).2.count x :=
      List.count_pos_iff.mpr hx
    by_cases hh : hitsB deg l x = true
    · exact Or.inr hh
    · left
      rw [hcount, if_neg hh] at hpos
      exact List.count_pos_iff.mp (by omega)
  · intro hx
    apply List.count_pos_iff.mp
    rcases hx with hq | hh
    · have := List.count_pos_iff.mpr hq
      omega
    · rw [hcount, if_pos hh]
      omega

theorem process_dependents_nodup (deg : List (String × Int))
    (q : List String) (l : List String) (hq : q.Nodup)
    (hzero : ∀ x ∈ q, dlookup deg x = some 0) :
    (process_dependents deg q l).2.Nodup := by
  rw [List.nodup_iff_count_le_one]
  intro x
  rw [process_dependents_snd_count]
  by_cases hh : hitsB deg l x = true
  · have hxq : x ∉ q := by
      intro hmem
      have h0 := hzero x hmem
      unfold hitsB at hh
      rw [h0] at hh
      simp at hh
    have : q.count x = 0 := List.count_eq_zero.mpr hxq
    simp [hh, this]
  · have hle := List.nodup_iff_count_le_one.mp hq x
    simp [hh]
    omega

theorem initial_queue_subset (deg : List (String × Int)) :
    ∀ x ∈ initial_queue deg, x ∈ keys deg := by
  induction deg with
  | nil => simp [initial_queue]
  | cons p rest ih =>
    obtain ⟨node, c⟩ := p
    intro x hx
    by_cases hc : c = 0
    · rcases (by simpa [initial_queue, hc] using hx :
          x = node ∨ x ∈ initial_queue rest) with he | he
      · simp [mem_keys_cons, he]
      · simp [mem_keys_cons, ih x he]
    · have : x ∈ initial_queue rest := by
        simpa [initial_queue, hc] using hx
      simp [mem_keys_cons, ih x this]

theorem initial_queue_mem (deg : List (String × Int))
    (hnd : (keys deg).Nodup) (x : String) :
    x ∈ initial_queue deg ↔ dlookup deg x = some 0 := by
  induction deg with
  | nil => simp [initial_queue, dlookup]
  | cons p rest ih =>
    obtain ⟨node, c⟩ := p
    have hnd2 : (keys rest).Nodup := by
      simpa [keys] using hnd.of_cons
    have hout : node ∉ keys rest := by
      simpa [keys] using (List.nodup_cons.mp (by simpa [keys] using hnd)).1
    by_cases hn : node = x
    · subst hn
      by_cases hc : c = 0
      · subst hc
        simp [initial_queue, dlookup]
      · have h1 : node ∉ initial_queue rest := fun hmem =>
          hout (initial_queue_subset rest node hmem)
        simp [initial_queue, hc, dlookup, h1]
    · have hlook : dlookup ((node, c) :: rest) x = dlookup rest x := by
        simp [dlookup, hn]
      rw [hlook, ← ih hnd2]
      have hn2 : ¬ x = node := fun he => hn he.symm
      by_cases hc : c = 0
      · simp [initial_queue, hc, hn2]
      · simp [initial_queue, hc]

theorem initial_queue_nodup (deg : List (String × Int))
    (hnd : (keys deg).Nodup) : (initial_queue deg).Nodup := by
  induction deg with
  | nil => simp [initial_queue]
  | cons p rest ih =>
    obtain ⟨node, c⟩ := p
    have hnd2 : (keys rest).Nodup := by
      simpa [keys] using hnd.of_cons
    have hout : node ∉ keys rest := by
      simpa [keys] using (List.nodup_cons.mp (by simpa [keys] using hnd)).1
    by_cases hc : c = 0
    · have h1 : node ∉ initial_queue rest := fun hmem =>
        hout (initial_queue_subset rest node hmem)
      simp [initial_queue, hc, List.nodup_cons, h1, ih hnd2]
    · simpa [initial_queue, hc] using ih hnd2

theorem list_index_eq_none_iff (l : List String) (x : String) :
    list_index l x = none ↔ x ∉ l := by
  induction l with
  | nil => simp [list_index]
  | cons a rest ih =>
    by_cases ha : a = x
    · simp [list_index, ha]
    · have ha2 : ¬ x = a := fun he => ha he.symm
      simp [list_index, ha, ha2, ih]

theorem list_index_append_left (l l2 : List String) (x : String)
    (h : x ∈ l) : list_index (l ++ l2) x = list_index l x := by
  induction l with
  | nil => simp at h
  | cons a rest ih =>
    by_cases ha : a = x
    · simp [list_index, ha]
    · have hrest : x ∈ rest := by
        rcases (by simpa using h : x = a ∨ x ∈ rest) with he | he
        · exact absurd he.symm ha
        · exact he
      simp [list_index, ha, ih hrest]

theorem list_index_append_self (l : List String) (x : String)
    (h : x ∉ l) : list_index (l ++ [x]) x = some l.length := by
  induction l with
  | nil => simp [list_index]
  | cons a rest ih =>
    have ha : ¬ a = x := fun he => h (by simp [he])
    have hrest : x ∉ rest := fun he => h (by simp [he])
    simp [list_index, ha, ih hrest]

theorem list_index_lt_length (l : List String) (x : String) (i : Nat)
    (h : list_index l x = some i) : i < l.length := by
  induction l generalizing i with
  | nil => simp [list_index] at h
  | cons a rest ih =>
    by_cases ha : a = x
    · simp [list_index, ha] at h
      simp [← h]
    · simp only [list_index, ha, if_false] at h
      rcases hr : list_index rest x with _ | j
      · rw [hr] at h
        simp at h
      · rw [hr] at h
        simp at h
        have := ih j hr
        simp [← h]
        omega

theorem list_index_isSome_of_mem (l : List String) (x : String)
    (h : x ∈ l) : ∃ i, list_index l x = some i := by
  rcases hr : list_index l x with _ | i
  · exact absurd ((list_index_eq_none_iff l x).mp hr) (by simp [h])
  · exact ⟨i, rfl⟩

theorem posOf_append_mem (l l2 : List String) (x : String) (h : x ∈ l) :
    posOf (l ++ l2) x = posOf l x := by
  unfold posOf
  rw [list_index_append_left l l2 x h]
  obtain ⟨i, hi⟩ := list_index_isSome_of_mem l x h
  simp [hi]

theorem posOf_append_self (l : List String) (x : String) (h : x ∉ l) :
    posOf (l ++ [x]) x = l.length := by
  unfold posOf
  rw [list_index_append_self l x h]
  rfl

theorem posOf_lt_length (l : List String) (x : String) (h : x ∈ l) :
    posOf l x < l.length := by
  obtain ⟨i, hi⟩ := list_index_isSome_of_mem l x h
  unfold posOf
  rw [hi]
  exact list_index_lt_length l x i hi

theorem dlookup_of_mem_nodup {g : List (String × α)} {node : String} {v : α}
    (hnd : (keys g).Nodup) (h : (node, v) ∈ g) :
    dlookup g node = some v := by
  induction g with
  | nil => simp at h
  | cons p rest ih =>
    obtain ⟨k2, v2⟩ := p
    have hnd2 : (keys rest).Nodup := by
      simpa [keys] using hnd.of_cons
    have hout : k2 ∉ keys rest := by
      simpa [keys] using (List.nodup_cons.mp (by simpa [keys] using hnd)).1
    rcases (by simpa using h :
        (node = k2 ∧ v = v2) ∨ (node, v) ∈ rest) with ⟨he1, he2⟩ | he
    · subst he1
      subst he2
      simp [dlookup]
    · have hne : ¬ k2 = node := by
        intro hcon
        subst hcon
        exact hout (mem_keys_of_mem he)
      simp [dlookup, hne, ih hnd2 he]

/-- The invariant carried by the Kahn while loop. -/
structure KInv (g : Graph) (deg : List (String × Int))
    (queue result : List String) : Prop where
  degKeys : keys deg = keys g
  degVal : ∀ x ∈ keys g, dlookup deg x = some ((remDeg g result x : Nat) : Int)
  resKeys : ∀ x ∈ result, x ∈ keys g
  qKeys : ∀ x ∈ queue, x ∈ keys g
  resNodup : result.Nodup
  qNodup : queue.Nodup
  disj : ∀ x ∈ queue, x ∉ result
  resDone : ∀ x ∈ result, DepsDone g result x
  qDone : ∀ x ∈ queue, DepsDone g result x
  order : ∀ x ∈ result, ∀ dp, Edge g x dp → posOf result dp < posOf result x
  accAll : ∀ x, x ∈ result ∨ x ∈ queue → Acc (fun dp y => Edge g y dp) x
  sched : ∀ x ∈ keys g, remDeg g result x = 0 → x ∈ result ∨ x ∈ queue

theorem kinv_step (g : Graph) (hnd : (keys g).Nodup)
    (deg : List (String × Int)) (current : String)
    (qrest result : List String)
    (hinv : KInv g deg (current :: qrest) result) :
    KInv g (process_dependents deg qrest (revListOf g current)).1
      (process_dependents deg qrest (revListOf g current)).2
      (result ++ [current]) := by
  have hck : current ∈ keys g := hinv.qKeys current (by simp)
  have hcr : current ∉ result := hinv.disj current (by simp)
  have hcd : DepsDone g result current := hinv.qDone current (by simp)
  have hcz : remDeg g result current = 0 :=
    (remDeg_eq_zero_iff g result current).mpr hcd
  have hcq : current ∉ qrest := (List.nodup_cons.mp hinv.qNodup).1
  have hq0 : ∀ x ∈ qrest, dlookup deg x = some 0 := by
    intro x hx
    have hk := hinv.qKeys x (by simp [hx])
    have hz : remDeg g result x = 0 :=
      (remDeg_eq_zero_iff g result x).mpr (hinv.qDone x (by simp [hx]))
    have := hinv.degVal x hk
    rw [hz] at this
    simpa using this
  have hcnt : ∀ x ∈ keys g,
      (revListOf g current).count x = (depsOf g x).count current := by
    intro x hx
    obtain ⟨deps, hdeps⟩ := Option.isSome_iff_exists.mp
      (dlookup_isSome_iff.mpr hx)
    rw [count_revListOf_of_lookup g hnd x current deps hdeps]
    unfold depsOf
    rw [hdeps]
    rfl
  have hrd : ∀ x, remDeg g result x =
      remDeg g (result ++ [current]) x + (depsOf g x).count current :=
    fun x => remDeg_append g result current x hck hcr
  have hhits : ∀ x, hitsB deg (revListOf g current) x = true ↔
      (x ∈ keys g ∧ remDeg g (result ++ [current]) x = 0 ∧
        0 < remDeg g result x) := by
    intro x
    by_cases hk : x ∈ keys g
    · have hv := hinv.degVal x hk
      unfold hitsB
      rw [hv]
      have hc := hcnt x hk
      have hr := hrd x
      simp only [decide_eq_true_eq, hc]
      constructor
      · intro hcond
        refine ⟨hk, by omega, by omega⟩
      · intro hcond
        obtain ⟨_, h1, h2⟩ := hcond
        constructor
        · omega
        · omega
    · have hnone : dlookup deg x = none := by
        rw [dlookup_eq_none_iff, hinv.degKeys]
        exact hk
      unfold hitsB
      rw [hnone]
      simp [hk]
  have hmemq : ∀ x, x ∈ (process_dependents deg qrest (revListOf g current)).2
      ↔ x ∈ qrest ∨ (x ∈ keys g ∧ remDeg g (result ++ [current]) x = 0 ∧
        0 < remDeg g result x) := by
    intro x
    rw [process_dependents_mem, hhits]
  refine ⟨?_, ?_, ?_, ?_, ?_, ?_, ?_, ?_, ?_, ?_, ?_, ?_⟩
  · rw [process_dependents_keys]
    exact hinv.degKeys
  · intro x hx
    rw [process_dependents_fst, hinv.degVal x hx]
    have hc := hcnt x hx
    have hr := hrd x
    simp only [Option.map_some']
    congr 1
    rw [hc]
    omega
  · intro x hx
    rcases (by simpa using hx : x ∈ result ∨ x = current) with he | he
    · exact hinv.resKeys x he
    · exact he ▸ hck
  · intro x hx
    rcases (hmemq x).mp hx with he | he
    · exact hinv.qKeys x (by simp [he])
    · exact he.1
  · rw [List.nodup_append]
    exact ⟨hinv.resNodup, by simp, by simpa using hcr⟩
  · exact process_dependents_nodup deg qrest (revListOf g current)
      (List.nodup_cons.mp hinv.qNodup).2 hq0
  · intro x hx
    rcases (hmemq x).mp hx with he | he
    · have h1 : x ∉ result := hinv.disj x (by simp [he])
      have h2 : ¬ x = current := fun hc => hcq (hc ▸ he)
      simp [h1, h2]
    · obtain ⟨hk, hz, hpos⟩ := he
      have h1 : x ∉ result := by
        intro hmem
        have := (remDeg_eq_zero_iff g result x).mpr (hinv.resDone x hmem)
        omega
      have h2 : ¬ x = current := by
        intro hc
        subst hc
        omega
      simp [h1, h2]
  · intro x hx
    rcases (by simpa using hx : x ∈ result ∨ x = current) with he | he
    · exact depsDone_mono (hinv.resDone x he) (fun y hy => by simp [hy])
    · subst he
      exact depsDone_mono hcd (fun y hy => by simp [hy])
  · intro x hx
    rcases (hmemq x).mp hx with he | he
    · exact depsDone_mono (hinv.qDone x (by simp [he]))
        (fun y hy => by simp [hy])
    · exact (remDeg_eq_zero_iff g (result ++ [current]) x).mp he.2.1
  · intro x hx dp hdp
    rcases (by simpa using hx : x ∈ result ∨ x = current) with he | he
    · have hdpr : dp ∈ result := hinv.resDone x he dp hdp.1 hdp.2
      rw [posOf_append_mem result [current] x he,
        posOf_append_mem result [current] dp hdpr]
      exact hinv.order x he dp hdp
    · subst he
      have hdpr : dp ∈ result := hcd dp hdp.1 hdp.2
      rw [posOf_append_self result x hcr,
        posOf_append_mem result [x] dp hdpr]
      exact posOf_lt_length result dp hdpr
  · intro x hx
    rcases hx with he | he
    · rcases (by simpa using he : x ∈ result ∨ x = current) with h2 | h2
      · exact hinv.accAll x (Or.inl h2)
      · exact hinv.accAll x (Or.inr (by simp [h2]))
    · rcases (hmemq x).mp he with h2 | h2
      · exact hinv.accAll x (Or.inr (by simp [h2]))
      · constructor
        intro dp hdp
        have hdone : DepsDone g (result ++ [current]) x :=
          (remDeg_eq_zero_iff g (result ++ [current]) x).mp h2.2.1
        have : dp ∈ result ++ [current] := hdone dp hdp.1 hdp.2
        rcases (by simpa using this : dp ∈ result ∨ dp = current) with
            h3 | h3
        · exact hinv.accAll dp (Or.inl h3)
        · exact hinv.accAll dp (Or.inr (by simp [h3]))
  · intro x hx hz
    by_cases hr : remDeg g result x = 0
    · rcases hinv.sched x hx hr with he | he
      · exact Or.inl (by simp [he])
      · rcases (by simpa using he : x = current ∨ x ∈ qrest) with h2 | h2
        · exact Or.inl (by simp [h2])
        · exact Or.inr ((hmemq x).mpr (Or.inl h2))
    · exact Or.inr ((hmemq x).mpr (Or.inr ⟨hx, hz, by omega⟩))

theorem kinv_init (g : Graph) (hnd : (keys g).Nodup) :
    KInv g (build_state g).2 (initial_queue (build_state g).2) [] := by
  have hdk : keys (build_state g).2 = keys g := keys_build_state_snd g
  have hdnd : (keys (build_state g).2).Nodup := by rw [hdk]; exact hnd
  have hq0 : ∀ x ∈ initial_queue (build_state g).2,
      dlookup (build_state g).2 x = some 0 := by
    intro x hx
    exact (initial_queue_mem (build_state g).2 hdnd x).mp hx
  have hqz : ∀ x ∈ initial_queue (build_state g).2,
      x ∈ keys g ∧ remDeg g [] x = 0 := by
    intro x hx
    have hk : x ∈ keys g := by
      rw [← hdk]
      exact initial_queue_subset _ x hx
    have h0 := hq0 x hx
    have hv := build_state_deg_remDeg g hnd x hk
    rw [h0] at hv
    have : ((remDeg g [] x : Nat) : Int) = 0 := by
      simpa using hv.symm
    exact ⟨hk, by exact_mod_cast this⟩
  refine ⟨hdk, ?_, by simp, ?_, by simp, ?_, by simp, by simp, ?_, by simp,
    ?_, ?_⟩
  · intro x hx
    exact build_state_deg_remDeg g hnd x hx
  · intro x hx
    exact (hqz x hx).1
  · exact initial_queue_nodup _ hdnd
  · intro x hx
    exact (remDeg_eq_zero_iff g [] x).mp (hqz x hx).2
  · intro x hx
    rcases hx with he | he
    · simp at he
    · have hdone : DepsDone g [] x :=
        (remDeg_eq_zero_iff g [] x).mp (hqz x he).2
      constructor
      intro dp hdp
      exact absurd (hdone dp hdp.1 hdp.2) (by simp)
  · intro x hx hz
    right
    rw [initial_queue_mem (build_state g).2 hdnd x]
    have hv := build_state_deg_remDeg g hnd x hx
    rw [hz] at hv
    simpa using hv

theorem sortLoop_run (g : Graph) (hnd : (keys g).Nodup) :
    ∀ (n : Nat) (deg : List (String × Int)) (queue result : List String),
      posCount deg + queue.length ≤ n →
      KInv g deg queue result →
      ∀ fin, sortLoop (build_state g).1 deg queue result = fin →
      (∀ x ∈ fin, x ∈ keys g) ∧ fin.Nodup ∧
      (∀ x ∈ fin, ∀ dp, Edge g x dp → posOf fin dp < posOf fin x) ∧
      (∀ x ∈ fin, Acc (fun dp y => Edge g y dp) x) ∧
      (∀ x ∈ keys g, remDeg g fin x = 0 → x ∈ fin) := by
  intro n
  induction n with
  | zero =>
    intro deg queue result hn hinv fin hfin
    have hq : queue = [] := by
      cases queue with
      | nil => rfl
      | cons a rest => simp at hn
    subst hq
    simp only [sortLoop] at hfin
    subst hfin
    refine ⟨hinv.resKeys, hinv.resNodup, hinv.order,
      fun x hx => hinv.accAll x (Or.inl hx), ?_⟩
    intro x hx hz
    rcases hinv.sched x hx hz with he | he
    · exact he
    · simp at he
  | succ m ihm =>
    intro deg queue result hn hinv fin hfin
    cases queue with
    | nil =>
      simp only [sortLoop] at hfin
      subst hfin
      refine ⟨hinv.resKeys, hinv.resNodup, hinv.order,
        fun x hx => hinv.accAll x (Or.inl hx), ?_⟩
      intro x hx hz
      rcases hinv.sched x hx hz with he | he
      · exact he
      · simp at he
    | cons current qrest =>
      have hck : current ∈ keys g := hinv.qKeys current (by simp)
      have hrev : (dlookup (build_state g).1 current).getD [] =
          revListOf g current := by
        rw [dlookup_build_state_fst g current hck]
        rfl
      simp only [sortLoop] at hfin
      rw [hrev] at hfin
      have hmeas := process_dependents_measure deg qrest (revListOf g current)
      have hstep := kinv_step g hnd deg current qrest result hinv
      exact ihm _ _ _ (by simp at hn; omega) hstep fin hfin

/-- Master characterization of the while-loop result: under unique keys,
the produced order contains exactly the keys accessible along in-graph
dependency edges, has no duplicates, and places every in-graph dependency
strictly before its dependent. -/
theorem kahn_order_spec (g : Graph) (hnd : (keys g).Nodup) :
    (∀ x, x ∈ kahn_order g ↔
      (x ∈ keys g ∧ Acc (fun dp y => Edge g y dp) x)) ∧
    (kahn_order g).Nodup ∧
    (∀ x ∈ kahn_order g, ∀ dp, Edge g x dp →
      posOf (kahn_order g) dp < posOf (kahn_order g) x) := by
  have hrun := sortLoop_run g hnd
    (posCount (build_state g).2 + (initial_queue (build_state g).2).length)
    (build_state g).2 (initial_queue (build_state g).2) []
    (le_refl _) (kinv_init g hnd) (kahn_order g) rfl
  obtain ⟨hkeys, hnodup, horder, hacc, hclosed⟩ := hrun
  refine ⟨?_, hnodup, horder⟩
  intro x
  constructor
  · intro hx
    exact ⟨hkeys x hx, hacc x hx⟩
  · intro hx
    obtain ⟨hk, haccx⟩ := hx
    revert hk
    induction haccx with
    | intro y hpred ihy =>
      intro hk
      apply hclosed y hk
      rw [remDeg_eq_zero_iff]
      intro d hd hdk
      exact ihy d ⟨hd, hdk⟩ hdk

/-! ### Cycles, acyclicity and accessibility -/

/-- No module transitively depends on itself through in-graph edges. -/
def Acyclic (g : Graph) : Prop :=
  ∀ x, ¬ Relation.TransGen (Edge g) x x

/-- `x` lies on a cycle or transitively depends on a node lying on one. -/
def ReachesCycle (g : Graph) (x : String) : Prop :=
  ∃ z, Relation.ReflTransGen (Edge g) x z ∧ Relation.TransGen (Edge g) z z

theorem edge_src_mem {g : Graph} {x d : String} (h : Edge g x d) :
    x ∈ keys g := by
  obtain ⟨hd, _⟩ := h
  unfold depsOf at hd
  rcases hl : dlookup g x with _ | deps
  · rw [hl] at hd
    simp at hd
  · exact dlookup_isSome_iff.mp (by simp [hl])

theorem acc_of_not_mem_keys {g : Graph} {x : String} (h : x ∉ keys g) :
    Acc (fun dp y => Edge g y dp) x := by
  constructor
  intro dp hdp
  exact absurd (edge_src_mem hdp) h

theorem not_transGen_of_acc {g : Graph} {z : String}
    (h : Acc (fun dp y => Edge g y dp) z) :
    ¬ Relation.TransGen (Edge g) z z := by
  induction h with
  | intro y hpred ih =>
    intro ht
    obtain ⟨b, hyb, hby⟩ := Relation.TransGen.head'_iff.mp ht
    exact ih b hyb (Relation.TransGen.tail' hby hyb)

theorem acc_of_reaches {g : Graph} {y z : String}
    (hacc : Acc (fun dp y => Edge g y dp) y)
    (hr : Relation.ReflTransGen (Edge g) y z) :
    Acc (fun dp y => Edge g y dp) z := by
  induction hr with
  | refl => exact hacc
  | tail hab hbc ih => exact Acc.inv ih hbc

theorem not_acc_of_reachesCycle {g : Graph} {y : String}
    (h : ReachesCycle g y) : ¬ Acc (fun dp y => Edge g y dp) y := by
  intro hacc
  obtain ⟨z, hyz, hzz⟩ := h
  exact not_transGen_of_acc (acc_of_reaches hacc hyz) hzz

theorem reaches_subset_keys {g : Graph} {y w : String}
    (h : Relation.ReflTransGen (Edge g) y w) : w = y ∨ w ∈ keys g := by
  induction h with
  | refl => exact Or.inl rfl
  | tail hab hbc ih => exact Or.inr hbc.2

theorem finite_reachSet (g : Graph) (y : String) :
    {w | Relation.ReflTransGen (Edge g) y w}.Finite := by
  apply Set.Finite.subset (Set.Finite.insert y (List.finite_toSet (keys g)))
  intro w hw
  rcases reaches_subset_keys hw with he | he
  · simp [he]
  · simp [he]

theorem acc_of_not_reachesCycle (g : Graph) :
    ∀ (n : Nat) (y : String),
      ({w | Relation.ReflTransGen (Edge g) y w}).ncard ≤ n →
      ¬ ReachesCycle g y → Acc (fun dp y => Edge g y dp) y := by
  intro n
  induction n with
  | zero =>
    intro y hn hnr
    exfalso
    have hy : y ∈ {w | Relation.ReflTransGen (Edge g) y w} := by
      simp [Relation.ReflTransGen.refl]
    have hne : {w | Relation.ReflTransGen (Edge g) y w}.Nonempty := ⟨y, hy⟩
    have := Set.ncard_pos (finite_reachSet g y) |>.mpr hne
    omega
  | succ m ih =>
    intro y hn hnr
    constructor
    intro dp hdp
    by_cases hk : dp ∈ keys g
    · have hnr2 : ¬ ReachesCycle g dp := by
        intro hcon
        obtain ⟨z, hz1, hz2⟩ := hcon
        exact hnr ⟨z, Relation.ReflTransGen.head hdp hz1, hz2⟩
      have hsub : {w | Relation.ReflTransGen (Edge g) dp w} ⊆
          {w | Relation.ReflTransGen (Edge g) y w} := by
        intro w hw
        exact Relation.ReflTransGen.head hdp hw
      have hymem : y ∈ {w | Relation.ReflTransGen (Edge g) y w} := by
        simp [Relation.ReflTransGen.refl]
      have hynot : y ∉ {w | Relation.ReflTransGen (Edge g) dp w} := by
        intro hcon
        exact hnr ⟨y, Relation.ReflTransGen.refl,
          Relation.TransGen.head' hdp hcon⟩
      have hss : {w | Relation.ReflTransGen (Edge g) dp w} ⊂
          {w | Relation.ReflTransGen (Edge g) y w} := by
        constructor
        · exact hsub
        · intro hcon
          exact hynot (hcon hymem)
      have hlt := Set.ncard_lt_ncard hss (finite_reachSet g y)
      exact ih dp (by omega) hnr2
    · exact acc_of_not_mem_keys hk

theorem acc_iff_not_reachesCycle (g : Graph) (y : String) :
    Acc (fun dp y => Edge g y dp) y ↔ ¬ ReachesCycle g y := by
  constructor
  · intro hacc hr
    exact not_acc_of_reachesCycle hr hacc
  · intro hnr
    exact acc_of_not_reachesCycle g
      ({w | Relation.ReflTransGen (Edge g) y w}).ncard y (le_refl _) hnr

theorem acc_of_acyclic {g : Graph} (hacyc : Acyclic g) (y : String) :
    Acc (fun dp y => Edge g y dp) y := by
  rw [acc_iff_not_reachesCycle]
  intro hcon
  obtain ⟨z, _, hz⟩ := hcon
  exact hacyc z hz

/-! ### Consequences for `topological_sort` -/

theorem kahn_order_of_acyclic (g : Graph) (hnd : (keys g).Nodup)
    (hacyc : Acyclic g) :
    (∀ x, x ∈ kahn_order g ↔ x ∈ keys g) ∧
    (kahn_order g).length = g.length := by
  obtain ⟨hmem, hnodup, _⟩ := kahn_order_spec g hnd
  have hiff : ∀ x, x ∈ kahn_order g ↔ x ∈ keys g := by
    intro x
    rw [hmem x]
    constructor
    · exact And.left
    · intro hx
      exact ⟨hx, acc_of_acyclic hacyc x⟩
  refine ⟨hiff, ?_⟩
  have h1 : List.Subperm (kahn_order g) (keys g) :=
    List.subperm_of_subset hnodup (fun x hx => (hiff x).mp hx)
  have h2 : List.Subperm (keys g) (kahn_order g) :=
    List.subperm_of_subset hnd (fun x hx => (hiff x).mpr hx)
  have := h1.length_le
  have := h2.length_le
  have := keys_length g
  omega

theorem topological_sort_ok_of_acyclic (g : Graph) (hnd : (keys g).Nodup)
    (hacyc : Acyclic g) :
    topological_sort g = Except.ok (kahn_order g) := by
  obtain ⟨_, hlen⟩ := kahn_order_of_acyclic g hnd hacyc
  unfold topological_sort
  simp [hlen]

theorem kahn_order_length_ne_of_cycle (g : Graph) (hnd : (keys g).Nodup)
    (x : String) (hcyc : Relation.TransGen (Edge g) x x) :
    (kahn_order g).length ≠ g.length := by
  obtain ⟨hmem, hnodup, _⟩ := kahn_order_spec g hnd
  have hxk : x ∈ keys g := by
    obtain ⟨b, hxb, _⟩ := Relation.TransGen.head'_iff.mp hcyc
    exact edge_src_mem hxb
  have hxout : x ∉ kahn_order g := by
    intro hcon
    have hacc := ((hmem x).mp hcon).2
    exact not_transGen_of_acc hacc hcyc
  have h1 : List.Subperm (kahn_order g) (keys g) :=
    List.subperm_of_subset hnodup (fun y hy => ((hmem y).mp hy).1)
  intro heq
  have hperm : List.Perm (kahn_order g) (keys g) := by
    apply h1.perm_of_length_le
    have := keys_length g
    omega
  exact hxout (hperm.mem_iff.mpr hxk)

theorem topological_sort_error_of_cycle (g : Graph) (hnd : (keys g).Nodup)
    (x : String) (hcyc : Relation.TransGen (Edge g) x x) :
    topological_sort g = Except.error (DiscoverError.circular
      ((keys g).filter (fun k => decide (k ∉ kahn_order g)))) := by
  have hne := kahn_order_length_ne_of_cycle g hnd x hcyc
  unfold topological_sort
  simp [hne]

theorem unresolved_mem_iff (g : Graph) (hnd : (keys g).Nodup) (y : String) :
    y ∈ (keys g).filter (fun k => decide (k ∉ kahn_order g)) ↔
      (y ∈ keys g ∧ ReachesCycle g y) := by
  obtain ⟨hmem, _, _⟩ := kahn_order_spec g hnd
  rw [List.mem_filter]
  simp only [decide_eq_true_eq]
  constructor
  · intro ⟨hk, hout⟩
    refine ⟨hk, ?_⟩
    by_contra hnr
    exact hout ((hmem y).mpr ⟨hk, (acc_iff_not_reachesCycle g y).mpr hnr⟩)
  · intro ⟨hk, hrc⟩
    refine ⟨hk, ?_⟩
    intro hcon
    exact not_acc_of_reachesCycle hrc ((hmem y).mp hcon).2

/-! ### Unknown dependency names are ignored -/

/-- The same graph with every dependency name that is not a graph key
removed from the dependency lists. -/
def pruneGraph (g : Graph) : Graph :=
  g.map (fun p => (p.1, p.2.filter (fun d => decide (d ∈ keys g))))

theorem keys_map_snd (g : List (String × List String))
    (f : String × List String → List String) :
    keys (g.map (fun p => (p.1, f p))) = keys g := by
  induction g with
  | nil => rfl
  | cons p rest ih =>
    obtain ⟨node, deps⟩ := p
    simp [keys, ih]

theorem keys_pruneGraph (g : Graph) : keys (pruneGraph g) = keys g :=
  keys_map_snd g _

theorem add_edges_for_filter (g : Graph)
    (st : List (String × List String) × List (String × Int))
    (node : String) (deps : List String) (hst : keys st.1 = keys g) :
    add_edges_for st node deps =
      add_edges_for st node (deps.filter (fun d => decide (d ∈ keys g))) := by
  induction deps generalizing st with
  | nil => rfl
  | cons dep rest ih =>
    by_cases hk : dep ∈ keys g
    · rw [List.filter_cons_of_pos (by simpa using hk)]
      have hstep : ∀ l, add_edges_for st node (dep :: l) =
          add_edges_for (add_edge st node dep) node l := fun l => rfl
      rw [hstep, hstep]
      exact ih (add_edge st node dep)
        (by rw [keys_add_edge_fst]; exact hst)
    · rw [List.filter_cons_of_neg (by simpa using hk)]
      have hnoop : add_edge st node dep = st := by
        unfold add_edge
        have : ¬ (dlookup st.1 dep).isSome := by
          rw [dlookup_isSome_iff, hst]
          exact hk
        simp [this]
      have hstep : add_edges_for st node (dep :: rest) =
          add_edges_for (add_edge st node dep) node rest := rfl
      rw [hstep, hnoop]
      exact ih st hst

theorem init_reverse_graph_map_snd (g : Graph)
    (f : String × List String → List String) :
    init_reverse_graph (g.map (fun p => (p.1, f p))) =
      init_reverse_graph g := by
  induction g with
  | nil => rfl
  | cons p rest ih =>
    obtain ⟨node, deps⟩ := p
    simp [init_reverse_graph, ih]

theorem init_in_degree_map_snd (g : Graph)
    (f : String × List String → List String) :
    init_in_degree (g.map (fun p => (p.1, f p))) = init_in_degree g := by
  induction g with
  | nil => rfl
  | cons p rest ih =>
    obtain ⟨node, deps⟩ := p
    simp [init_in_degree, ih]

theorem fold_filter_eq (g : Graph) (entries : List (String × List String)) :
    ∀ (st : List (String × List String) × List (String × Int)),
      keys st.1 = keys g →
      entries.foldl (fun st p =>
        add_edges_for st p.1 (p.2.filter (fun d => decide (d ∈ keys g)))) st =
      entries.foldl (fun st p => add_edges_for st p.1 p.2) st := by
  induction entries with
  | nil => intro st _; rfl
  | cons p rest ih =>
    obtain ⟨node, deps⟩ := p
    intro st hst
    rw [List.foldl_cons, List.foldl_cons,
      ← add_edges_for_filter g st node deps hst]
    exact ih (add_edges_for st node deps)
      (by rw [keys_add_edges_for_fst]; exact hst)

theorem build_state_pruneGraph (g : Graph) :
    build_state (pruneGraph g) = build_state g := by
  unfold build_state pruneGraph
  rw [init_reverse_graph_map_snd, init_in_degree_map_snd, List.foldl_map]
  have hinit : keys (init_reverse_graph g, init_in_degree g).1 = keys g :=
    keys_init_reverse_graph g
  exact fold_filter_eq g g (init_reverse_graph g, init_in_degree g) hinit

theorem kahn_order_pruneGraph (g : Graph) :
    kahn_order (pruneGraph g) = kahn_order g := by
  unfold kahn_order
  rw [build_state_pruneGraph]

theorem topological_sort_pruneGraph (g : Graph) :
    topological_sort (pruneGraph g) = topological_sort g := by
  unfold topological_sort
  rw [kahn_order_pruneGraph, keys_pruneGraph]
  have hlen : (pruneGraph g).length = g.length := by
    unfold pruneGraph
    simp
  rw [hlen]

theorem initial_queue_eq_filter (deg : List (String × Int))
    (hnd : (keys deg).Nodup) :
    initial_queue deg =
      (keys deg).filter (fun nm => decide (dlookup deg nm = some 0)) := by
  induction deg with
  | nil => rfl
  | cons p rest ih =>
    obtain ⟨node, c⟩ := p
    have hnd2 : (keys rest).Nodup := by
      simpa [keys] using hnd.of_cons
    have hout : node ∉ keys rest := by
      simpa [keys] using (List.nodup_cons.mp (by simpa [keys] using hnd)).1
    have hcong : (keys rest).filter
        (fun nm => decide (dlookup ((node, c) :: rest) nm = some 0)) =
        (keys rest).filter (fun nm => decide (dlookup rest nm = some 0)) := by
      apply List.filter_congr
      intro nm hnm
      have hne : ¬ node = nm := fun he => hout (he ▸ hnm)
      simp [dlookup, hne]
    by_cases hc : c = 0
    · subst hc
      have hhead : dlookup ((node, (0 : Int)) :: rest) node = some 0 := by
        simp [dlookup]
      simp only [initial_queue, keys, List.filter_cons]
      rw [if_pos trivial, hcong, ih hnd2, if_pos (by simp [hhead])]
    · have hhead : ¬ dlookup ((node, c) :: rest) node = some 0 := by
        simp [dlookup, hc]
      simp only [initial_queue, keys, List.filter_cons]
      rw [if_neg hc, hcong, ih hnd2, if_neg (by simp [hhead])]

theorem missingCount_pos (g : Graph) (d : List String) (node : String)
    (hk : node ∈ keys g) (hnd : node ∉ d) : 0 < missingCount g d := by
  have hmem : node ∈ (keys g).dedup.filter (fun k => decide (k ∉ d)) := by
    simp [List.mem_filter, List.mem_dedup, hk, hnd]
  unfold missingCount
  refine List.length_pos.mpr (fun he => ?_)
  rw [he] at hmem
  simp at hmem

theorem scan_fuel_stable (g : Graph) :
    ∀ (k : Nat) (d : List String), missingCount g d ≤ k →
    ∀ (entries : List (String × List String)) (m : String)
      (fuel1 fuel2 : Nat),
      (∀ p ∈ entries, p ∈ g) →
      missingCount g d ≤ fuel1 → missingCount g d ≤ fuel2 →
      find_dependents_scan g fuel1 entries m d =
        find_dependents_scan g fuel2 entries m d := by
  intro k
  induction k using Nat.strong_induction_on with
  | _ k ihk =>
    intro d hk entries m fuel1 fuel2 hent h1 h2
    induction entries with
    | nil =>
      have hn : ∀ fuel, find_dependents_scan g fuel [] m d = some d := by
        intro fuel
        rcases fuel with _ | f <;> simp [find_dependents_scan]
      rw [hn, hn]
    | cons p rest ihe =>
      obtain ⟨node, deps⟩ := p
      have hrest : ∀ p ∈ rest, p ∈ g := fun p hp => hent p (by simp [hp])
      by_cases hcond : m ∈ deps ∧ node ∉ d
      · have hnk : node ∈ keys g :=
          mem_keys_of_mem (hent (node, deps) (by simp))
        have hpos : 0 < missingCount g d :=
          missingCount_pos g d node hnk hcond.2
        rcases fuel1 with _ | f1
        · omega
        rcases fuel2 with _ | f2
        · omega
        have hlt : missingCount g (d ++ [node]) < missingCount g d :=
          missingCount_lt g d node hnk hcond.2
        have hnest := ihk (missingCount g (d ++ [node])) (by omega)
          (d ++ [node]) (le_refl _) g node f1 f2 (fun p hp => hp)
          (by omega) (by omega)
        simp only [find_dependents_scan]
        rw [if_pos hcond, if_pos hcond, hnest]
        rcases hres : find_dependents_scan g f2 g node (d ++ [node]) with
            _ | d2
        · rfl
        · have hsub : ∀ x ∈ d ++ [node], x ∈ d2 :=
            scan_mono g f2 g node (d ++ [node]) d2 hres
          have hle : missingCount g d2 ≤ missingCount g (d ++ [node]) :=
            missingCount_le g (d ++ [node]) d2 hsub
          exact ihk (missingCount g d2) (by omega) d2 (le_refl _)
            rest m (f1 + 1) (f2 + 1) hrest (by omega) (by omega)
      · rcases fuel1 with _ | f1 <;> rcases fuel2 with _ | f2 <;>
          simp only [find_dependents_scan] <;>
          rw [if_neg hcond, if_neg hcond] <;>
          exact ihe hrest

theorem get_dependents_fuel (g : Graph) (t : String) (fuel : Nat)
    (hfuel : g.length ≤ fuel) :
    find_dependents_scan g fuel g t [] = get_dependents g t := by
  unfold get_dependents
  have hmiss : missingCount g [] ≤ g.length := by
    have h1 : ((keys g).dedup.filter
        (fun k => decide (k ∉ ([] : List String)))).length ≤
        (keys g).dedup.length :=
      List.Sublist.length_le (List.filter_sublist _)
    have h2 : (keys g).dedup.length ≤ (keys g).length :=
      List.Sublist.length_le (List.dedup_sublist _)
    have h3 := keys_length g
    unfold missingCount
    omega
  exact scan_fuel_stable g (missingCount g []) [] (le_refl _) g t fuel
    g.length (fun p hp => hp) (by omega) hmiss

/-! ### Concrete graphs used by the witnesses -/

/-- The spec example `{A: [], B: [A], C: [B], D: [A]}`. -/
def exampleAcyclicGraph : Graph :=
  [("A", []), ("B", ["A"]), ("C", ["B"]), ("D", ["A"])]

/-- The spec example `{A: [B], B: [A]}`. -/
def exampleCyclicGraph : Graph := [("A", ["B"]), ("B", ["A"])]

/-- The spec example `{A: [], B: [A], C: [B]}`. -/
def exampleChainGraph : Graph := [("A", []), ("B", ["A"]), ("C", ["B"])]

/-- Pairs with a repeated name and an unknown dependency name. -/
def examplePairs : List (String × List String) :=
  [("A", ["X"]), ("B", []), ("A", ["Y"])]

/-- A graph whose first module depends only on an unknown name. -/
def exampleUnknownGraph : Graph := [("A", ["X"]), ("B", ["A"])]

theorem acyclic_of_rank (g : Graph) (f : String → Nat)
    (hf : ∀ x d, Edge g x d → f d < f x) : Acyclic g := by
  intro x hcyc
  have hlt : ∀ a b, Relation.TransGen (Edge g) a b → f b < f a := by
    intro a b h
    induction h with
    | single he => exact hf _ _ he
    | tail hab hbc ih => exact lt_trans (hf _ _ hbc) ih
  exact lt_irrefl _ (hlt x x hcyc)

theorem exampleAcyclicGraph_acyclic : Acyclic exampleAcyclicGraph := by
  apply acyclic_of_rank _
    (fun s => if s = "A" then 0 else if s = "C" then 2 else 1)
  intro x d hedge
  have hx : x ∈ keys exampleAcyclicGraph := edge_src_mem hedge
  have hd : d ∈ keys exampleAcyclicGraph := hedge.2
  simp [exampleAcyclicGraph, keys] at hx hd
  rcases hx with rfl | rfl | rfl | rfl <;>
    rcases hd with rfl | rfl | rfl | rfl <;>
    revert hedge <;> decide

theorem exampleChainGraph_acyclic : Acyclic exampleChainGraph := by
  apply acyclic_of_rank _
    (fun s => if s = "A" then 0 else if s = "B" then 1 else 2)
  intro x d hedge
  have hx : x ∈ keys exampleChainGraph := edge_src_mem hedge
  have hd : d ∈ keys exampleChainGraph := hedge.2
  simp [exampleChainGraph, keys] at hx hd
  rcases hx with rfl | rfl | rfl <;>
    rcases hd with rfl | rfl | rfl <;>
    revert hedge <;> decide

theorem exampleUnknownGraph_acyclic : Acyclic exampleUnknownGraph := by
  apply acyclic_of_rank _ (fun s => if s = "A" then 0 else 1)
  intro x d hedge
  have hx : x ∈ keys exampleUnknownGraph := edge_src_mem hedge
  have hd : d ∈ keys exampleUnknownGraph := hedge.2
  simp [exampleUnknownGraph, keys] at hx hd
  rcases hx with rfl | rfl <;> rcases hd with rfl | rfl <;>
    revert hedge <;> decide

/-! ### The claims -/

/-- Claim C1: for every acyclic dependency graph (a dict, so with unique
module names), `topological_sort` succeeds, and in the returned order every
dependency of a module that is itself a key of the graph appears at a
strictly earlier position than that module. -/
theorem c1_topological_sort_deps_first (g : Graph) (hnd : (keys g).Nodup)
    (hacyc : Acyclic g) :
    ∃ res, topological_sort g = Except.ok res ∧
      ∀ node deps d, (node, deps) ∈ g → d ∈ deps → d ∈ keys g →
        posOf res d < posOf res node := by
  refine ⟨kahn_order g, topological_sort_ok_of_acyclic g hnd hacyc, ?_⟩
  obtain ⟨hmem, hnodup, horder⟩ := kahn_order_spec g hnd
  intro node deps d hmemg hd hdk
  have hdeps : depsOf g node = deps := by
    unfold depsOf
    rw [dlookup_of_mem_nodup hnd hmemg]
    rfl
  have hedge : Edge g node d := ⟨by rw [hdeps]; exact hd, hdk⟩
  have hnodein : node ∈ kahn_order g :=
    (hmem node).mpr ⟨mem_keys_of_mem hmemg, acc_of_acyclic hacyc node⟩
  exact horder node hnodein d hedge

/-- Witness for C1 at the spec example `{A: [], B: [A], C: [B], D: [A]}`. -/
theorem c1_witness :
    ((keys exampleAcyclicGraph).Nodup ∧ Acyclic exampleAcyclicGraph) ∧
    (∃ res, topological_sort exampleAcyclicGraph = Except.ok res ∧
      ∀ node deps d, (node, deps) ∈ exampleAcyclicGraph → d ∈ deps →
        d ∈ keys exampleAcyclicGraph → posOf res d < posOf res node) :=
  ⟨⟨by decide, exampleAcyclicGraph_acyclic⟩,
    c1_topological_sort_deps_first exampleAcyclicGraph (by decide)
      exampleAcyclicGraph_acyclic⟩

/-- Claim C2: for every graph with a dependency cycle, `topological_sort`
fails with a `CircularDependencyError` whose carried node set holds exactly
the unresolved nodes — those on a cycle together with every node
transitively depending on a cyclic node. -/
theorem c2_topological_sort_cycle_error (g : Graph)
    (hnd : (keys g).Nodup) (x : String)
    (hcyc : Relation.TransGen (Edge g) x x) :
    ∃ S, topological_sort g = Except.error (DiscoverError.circular S) ∧
      ∀ y, y ∈ S ↔ (y ∈ keys g ∧
        ∃ z, Relation.ReflTransGen (Edge g) y z ∧
          Relation.TransGen (Edge g) z z) := by
  refine ⟨_, topological_sort_error_of_cycle g hnd x hcyc, ?_⟩
  intro y
  exact unresolved_mem_iff g hnd y

/-- Witness for C2 at the spec example `{A: [B], B: [A]}`. -/
theorem c2_witness :
    ((keys exampleCyclicGraph).Nodup ∧
      Relation.TransGen (Edge exampleCyclicGraph) "A" "A") ∧
    (∃ S, topological_sort exampleCyclicGraph =
        Except.error (DiscoverError.circular S) ∧
      ∀ y, y ∈ S ↔ (y ∈ keys exampleCyclicGraph ∧
        ∃ z, Relation.ReflTransGen (Edge exampleCyclicGraph) y z ∧
          Relation.TransGen (Edge exampleCyclicGraph) z z)) := by
  have hAB : Edge exampleCyclicGraph "A" "B" := by decide
  have hBA : Edge exampleCyclicGraph "B" "A" := by decide
  have hcyc : Relation.TransGen (Edge exampleCyclicGraph) "A" "A" :=
    Relation.TransGen.head hAB (Relation.TransGen.single hBA)
  exact ⟨⟨by decide, hcyc⟩,
    c2_topological_sort_cycle_error exampleCyclicGraph (by decide) "A" hcyc⟩

/-- Claim C3: for every acyclic graph and every target that is a key,
`get_dependencies_up_to` returns the full topological order truncated
through and including the first occurrence of the target. -/
theorem c3_build_order_up_to_prefix (g : Graph) (hnd : (keys g).Nodup)
    (hacyc : Acyclic g) (x : String) (hx : x ∈ keys g) :
    ∃ res i, topological_sort g = Except.ok res ∧
      list_index res x = some i ∧
      get_dependencies_up_to g x = Except.ok (res.take (i + 1)) := by
  have hok := topological_sort_ok_of_acyclic g hnd hacyc
  have hmem := (kahn_order_of_acyclic g hnd hacyc).1
  have hxin : x ∈ kahn_order g := (hmem x).mpr hx
  obtain ⟨i, hi⟩ := list_index_isSome_of_mem _ x hxin
  refine ⟨kahn_order g, i, hok, hi, ?_⟩
  simp [get_dependencies_up_to, hok, hi]

/-- Witness for C3 at `{A: [], B: [A], C: [B]}` with target `B`. -/
theorem c3_witness :
    ((keys exampleChainGraph).Nodup ∧ Acyclic exampleChainGraph ∧
      "B" ∈ keys exampleChainGraph) ∧
    (∃ res i, topological_sort exampleChainGraph = Except.ok res ∧
      list_index res "B" = some i ∧
      get_dependencies_up_to exampleChainGraph "B" =
        Except.ok (res.take (i + 1))) :=
  ⟨⟨by decide, exampleChainGraph_acyclic, by decide⟩,
    c3_build_order_up_to_prefix exampleChainGraph (by decide)
      exampleChainGraph_acyclic "B" (by decide)⟩

/-- Claim C4: `get_dependents` is transitively closed — every module that
depends on the target directly or through intermediate modules is a member
of the returned set. -/
theorem c4_get_dependents_transitive (g : Graph) (x w : String)
    (h : DependsOnT g x w) :
    ∃ r, get_dependents g x = some r ∧ w ∈ r := by
  obtain ⟨r, hr, hiff⟩ := get_dependents_spec g x
  exact ⟨r, hr, (hiff w).mpr h⟩

/-- Witness for C4: in `{A: [], B: [A], C: [B]}`, `C` depends on `A`
through `B` and is reported as a dependent of `A`. -/
theorem c4_witness :
    DependsOnT exampleChainGraph "A" "C" ∧
    (∃ r, get_dependents exampleChainGraph "A" = some r ∧ "C" ∈ r) := by
  have hC : ("C", ["B"]) ∈ exampleChainGraph := by decide
  have hB : ("B", ["A"]) ∈ exampleChainGraph := by decide
  have hdep : DependsOnT exampleChainGraph "A" "C" :=
    DependsOnT.step hC (by decide)
      (DependsOnT.direct hB (by decide))
  exact ⟨hdep, c4_get_dependents_transitive exampleChainGraph "A" "C" hdep⟩

/-- Claim C5: for an acyclic graph, `get_dependencies_up_to` fails with a
`ModuleNotFoundError` exactly when the target is not a key of the graph,
and returns normally otherwise. -/
theorem c5_module_not_found_iff (g : Graph) (hnd : (keys g).Nodup)
    (hacyc : Acyclic g) (t : String) :
    (get_dependencies_up_to g t =
      Except.error (DiscoverError.moduleNotFound t) ↔ t ∉ keys g) ∧
    (t ∈ keys g → ∃ l, get_dependencies_up_to g t = Except.ok l) := by
  have hok := topological_sort_ok_of_acyclic g hnd hacyc
  have hmem := (kahn_order_of_acyclic g hnd hacyc).1
  constructor
  · constructor
    · intro herr hk
      obtain ⟨i, hi⟩ := list_index_isSome_of_mem _ t ((hmem t).mpr hk)
      simp [get_dependencies_up_to, hok, hi] at herr
    · intro hk
      have hnone : list_index (kahn_order g) t = none := by
        rw [list_index_eq_none_iff]
        intro hcon
        exact hk ((hmem t).mp hcon)
      simp [get_dependencies_up_to, hok, hnone]
  · intro hk
    obtain ⟨i, hi⟩ := list_index_isSome_of_mem _ t ((hmem t).mpr hk)
    exact ⟨(kahn_order g).take (i + 1),
      by simp [get_dependencies_up_to, hok, hi]⟩

/-- Witness for C5 at `{A: [], B: [A], C: [B]}` (queries `Z` and `B`). -/
theorem c5_witness :
    ((keys exampleChainGraph).Nodup ∧ Acyclic exampleChainGraph) ∧
    ((get_dependencies_up_to exampleChainGraph "Z" =
      Except.error (DiscoverError.moduleNotFound "Z") ↔
        "Z" ∉ keys exampleChainGraph) ∧
    ("Z" ∈ keys exampleChainGraph →
      ∃ l, get_dependencies_up_to exampleChainGraph "Z" = Except.ok l)) :=
  ⟨⟨by decide, exampleChainGraph_acyclic⟩,
    c5_module_not_found_iff exampleChainGraph (by decide)
      exampleChainGraph_acyclic "Z"⟩

/-- Claim C6: dependency names that are not graph keys never make
`topological_sort` fail: pruning them changes nothing, they contribute
zero to the in-degree of the referencing module, and a module whose
dependencies are all unknown is seeded into the initial queue. -/
theorem c6_unknown_deps_ignored (g : Graph) (hnd : (keys g).Nodup) :
    topological_sort g = topological_sort (pruneGraph g) ∧
    (∀ node deps, (node, deps) ∈ g →
      dlookup (build_state g).2 node =
        some ((inKeysCount g deps : Nat) : Int)) ∧
    (∀ node deps, (node, deps) ∈ g → (∀ d ∈ deps, d ∉ keys g) →
      node ∈ initial_queue (build_state g).2) := by
  have hval : ∀ node deps, (node, deps) ∈ g →
      dlookup (build_state g).2 node =
        some ((inKeysCount g deps : Nat) : Int) := by
    intro node deps hmem
    have hk : node ∈ keys g := mem_keys_of_mem hmem
    rw [build_state_deg_remDeg g hnd node hk]
    have hdeps : depsOf g node = deps := by
      unfold depsOf
      rw [dlookup_of_mem_nodup hnd hmem]
      rfl
    rw [remDeg_nil, hdeps]
  refine ⟨(topological_sort_pruneGraph g).symm, hval, ?_⟩
  intro node deps hmem hunk
  have hz : inKeysCount g deps = 0 := by
    unfold inKeysCount
    rw [List.length_eq_zero, List.filter_eq_nil_iff]
    intro d hd
    simp [hunk d hd]
  have hdnd : (keys (build_state g).2).Nodup := by
    rw [keys_build_state_snd]
    exact hnd
  rw [initial_queue_mem _ hdnd, hval node deps hmem, hz]
  rfl

/-- Witness for C6 at `{A: [X], B: [A]}` where `X` is not a key. -/
theorem c6_witness :
    (keys exampleUnknownGraph).Nodup ∧
    (topological_sort exampleUnknownGraph =
      topological_sort (pruneGraph exampleUnknownGraph) ∧
    (∀ node deps, (node, deps) ∈ exampleUnknownGraph →
      dlookup (build_state exampleUnknownGraph).2 node =
        some ((inKeysCount exampleUnknownGraph deps : Nat) : Int)) ∧
    (∀ node deps, (node, deps) ∈ exampleUnknownGraph →
      (∀ d ∈ deps, d ∉ keys exampleUnknownGraph) →
      node ∈ initial_queue (build_state exampleUnknownGraph).2)) :=
  ⟨by decide, c6_unknown_deps_ignored exampleUnknownGraph (by decide)⟩

theorem process_dependents_queue_append (deg : List (String × Int))
    (q l : List String) :
    ∃ extra, (process_dependents deg q l).2 = q ++ extra := by
  induction l generalizing deg q with
  | nil => exact ⟨[], by simp [process_dependents]⟩
  | cons dep rest ih =>
    simp only [process_dependents]
    split
    · obtain ⟨extra, he⟩ := ih (dmodify deg dep (fun c => c - 1))
        (q ++ [dep])
      exact ⟨[dep] ++ extra, by rw [he, List.append_assoc]⟩
    · exact ih (dmodify deg dep (fun c => c - 1)) q

theorem sortLoop_cons_eq (rev : List (String × List String))
    (deg : List (String × Int)) (current : String)
    (qrest result : List String) :
    sortLoop rev deg (current :: qrest) result =
      sortLoop rev
        (process_dependents deg qrest ((dlookup rev current).getD [])).1
        (process_dependents deg qrest ((dlookup rev current).getD [])).2
        (result ++ [current]) := by
  simp only [sortLoop]

/-- Claim C7: the sorter is deterministic — the whole computation is a pure
function of the input pair sequence; the initial queue is seeded in the key
insertion order of the in-degree table; and ties among ready modules are
broken FIFO: each iteration pops the queue head and appends it next to the
result, while newly ready modules are enqueued only at the tail. -/
theorem c7_deterministic (ps1 ps2 : List (String × List String))
    (h : ps1 = ps2) :
    topological_sort (build_dependency_graph ps1) =
      topological_sort (build_dependency_graph ps2) ∧
    initial_queue (build_state (build_dependency_graph ps1)).2 =
      (keys (build_state (build_dependency_graph ps1)).2).filter
        (fun nm => decide
          (dlookup (build_state (build_dependency_graph ps1)).2 nm =
            some 0)) ∧
    (∀ (deg : List (String × Int)) (q l : List String),
      ∃ extra, (process_dependents deg q l).2 = q ++ extra) ∧
    (∀ (rev : List (String × List String)) (deg : List (String × Int))
      (current : String) (qrest result : List String),
      sortLoop rev deg (current :: qrest) result =
        sortLoop rev
          (process_dependents deg qrest ((dlookup rev current).getD [])).1
          (process_dependents deg qrest ((dlookup rev current).getD [])).2
          (result ++ [current])) := by
  subst h
  refine ⟨rfl, ?_, process_dependents_queue_append, sortLoop_cons_eq⟩
  apply initial_queue_eq_filter
  rw [keys_build_state_snd]
  exact keys_build_nodup ps1

/-- Witness for C7 at the repeated-name pair list. -/
theorem c7_witness :
    examplePairs = examplePairs ∧
    topological_sort (build_dependency_graph examplePairs) =
      topological_sort (build_dependency_graph examplePairs) :=
  ⟨rfl, (c7_deterministic examplePairs examplePairs rfl).1⟩

/-- Claim C8: the graph builder keeps every pair's name as a key and maps
each name to the dependency list of the last pair carrying it. -/
theorem c8_build_graph_last_write_wins (ps : List (String × List String))
    (n : String) (ds : List String) (h : (n, ds) ∈ ps) :
    n ∈ keys (build_dependency_graph ps) ∧
    ∀ m, dlookup (build_dependency_graph ps) m = lastAssignment ps m :=
  ⟨mem_keys_build ps n ds h, fun m => dlookup_build_eq_lastAssignment ps m⟩

/-- Witness for C8 at pairs with the name `A` occurring twice. -/
theorem c8_witness :
    ("A", ["X"]) ∈ examplePairs ∧
    ("A" ∈ keys (build_dependency_graph examplePairs) ∧
      ∀ m, dlookup (build_dependency_graph examplePairs) m =
        lastAssignment examplePairs m) :=
  ⟨by decide, c8_build_graph_last_write_wins examplePairs "A" ["X"]
    (by decide)⟩

/-- Claim C9: `get_dependents` terminates on every finite graph and target:
any recursion-depth budget of at least the number of graph entries is never
exhausted (the already-collected guard bounds the nesting), on cyclic
graphs included. -/
theorem c9_get_dependents_terminates (g : Graph) (t : String) (fuel : Nat)
    (hfuel : g.length ≤ fuel) :
    ∃ r, get_dependents g t = some r ∧
      find_dependents_scan g fuel g t [] = some r := by
  obtain ⟨r, hr⟩ := get_dependents_total g t
  refine ⟨r, hr, ?_⟩
  rw [get_dependents_fuel g t fuel hfuel, hr]

/-- Witness for C9 on the cyclic graph `{A: [B], B: [A]}`. -/
theorem c9_witness :
    exampleCyclicGraph.length ≤ 7 ∧
    (∃ r, get_dependents exampleCyclicGraph "A" = some r ∧
      find_dependents_scan exampleCyclicGraph 7 exampleCyclicGraph "A" []
        = some r) :=
  ⟨by decide, c9_get_dependents_terminates exampleCyclicGraph "A" 7
    (by decide)⟩

/-- Claim C10: `get_dependents` returns a set for every graph and every
target (keys and non-keys alike): exactly the modules that transitively
reach the target through their dependency lists, and the empty set when no
dependency list mentions the target. -/
theorem c10_get_dependents_total_spec (g : Graph) (t : String) :
    ∃ r, get_dependents g t = some r ∧
      (∀ w, w ∈ r ↔ DependsOnT g t w) ∧
      ((∀ node deps, (node, deps) ∈ g → t ∉ deps) → r = []) := by
  obtain ⟨r, hr, hiff⟩ := get_dependents_spec g t
  refine ⟨r, hr, hiff, ?_⟩
  intro hnone
  have haux : ∀ w, DependsOnT g t w → False := by
    intro w hdep
    induction hdep with
    | direct hmem ht => exact hnone _ _ hmem ht
    | step hmem hm hsub ih => exact ih
  rw [List.eq_nil_iff_forall_not_mem]
  exact fun w hw => haux w ((hiff w).mp hw)

/-- Witness for C10 at a target absent from the graph. -/
theorem c10_witness :
    ∃ r, get_dependents exampleChainGraph "Z" = some r ∧
      (∀ w, w ∈ r ↔ DependsOnT exampleChainGraph "Z" w) ∧
      ((∀ node deps, (node, deps) ∈ exampleChainGraph → "Z" ∉ deps) →
        r = []) :=
  c10_get_dependents_total_spec exampleChainGraph "Z"

end Discover
